import Mathlib

/-!
Verification development for the sbm bookmark manager (src/sbm.c, src/config.h).

The C program keeps an in-memory store (`Core`) of bookmark rows and tags,
loads it from a JSON-like text file on every invocation (`ReadJSON`), runs one
command (`ProcessCommand`), and writes the store back (`WriteJSON`).

The embedding below models C strings as `List Char` (NUL-free byte strings),
machine integers as `Nat`/`Int`, the fixed arrays `rows`/`tags` as Lean lists
holding the initialized entries, and process exits as an explicit result type
`PRes` carrying the exit code, the diagnostic message and the in-memory state
at the moment of exit (the persisted file is only written when the command
returns normally, so an `exited` result means the store on disk is untouched).
Interactive confirmation prompts are modelled by passing the read character
explicitly; the current wall-clock time is passed as the string that
`GetCurrentDateTime` would produce.
-/

set_option maxRecDepth 40000

namespace SBM

/-- C strings are modelled as NUL-free lists of characters. -/
abbrev CStr := List Char

/-- Constants from src/config.h. -/
def ROW_TAG_C : Nat := 8

/-- Size of the fixed `title` field (config.h). -/
def TITLE_S : Nat := 64

/-- Size of the fixed `comment` field (config.h). -/
def COMMENT_S : Nat := 256

/-- Size of the fixed short-url field (config.h). -/
def S_ADDR_S : Nat := 256

/-- Size of the fixed tag `name` field (config.h). -/
def TAG_NAME_S : Nat := 32

/-- Decimal digit character with value `d`, as produced by printf `%d`. -/
def digitChar : Nat → Char
  | 0 => '0'
  | 1 => '1'
  | 2 => '2'
  | 3 => '3'
  | 4 => '4'
  | 5 => '5'
  | 6 => '6'
  | 7 => '7'
  | 8 => '8'
  | 9 => '9'
  | _ => '*'

/-- Numeric value of a digit character (as used by `atoi`). -/
def charVal (c : Char) : Nat := c.toNat - 48

/-- Little-endian decimal digits of `n`, with explicit fuel so that the
definition is structural and kernel-reducible. -/
def natDigitsAux : Nat → Nat → List Nat
  | 0, _ => []
  | _ + 1, 0 => []
  | fuel + 1, n + 1 => ((n + 1) % 10) :: natDigitsAux fuel ((n + 1) / 10)

/-- Decimal rendering of a natural number, as printf `%d` produces for the
`unsigned int` identifiers of the program. -/
def natRepr (n : Nat) : CStr :=
  if n = 0 then [ '0' ] else ((natDigitsAux n n).map digitChar).reverse

/-- The digit-prefix reading that C `atoi` performs on the NUL-free strings
this program feeds it (no leading whitespace or sign ever occurs there). -/
def atoiNat (s : CStr) : Nat :=
  (s.takeWhile Char.isDigit).foldl (fun a c => a * 10 + charVal c) 0

theorem natDigitsAux_eq_digits (fuel n : Nat) (h : n ≤ fuel) :
    natDigitsAux fuel n = Nat.digits 10 n := by
  induction fuel generalizing n with
  | zero =>
    interval_cases n
    simp [natDigitsAux]
  | succ f ih =>
    match n with
    | 0 => simp [natDigitsAux]
    | m + 1 =>
      rw [natDigitsAux, ih ((m + 1) / 10) (by omega),
        Nat.digits_def' (by norm_num) (Nat.succ_pos m)]

theorem charVal_digitChar (d : Nat) (h : d < 10) : charVal (digitChar d) = d := by
  interval_cases d <;> rfl

theorem isDigit_digitChar (d : Nat) (h : d < 10) : (digitChar d).isDigit = true := by
  interval_cases d <;> rfl

theorem digitChar_ne_quote (d : Nat) (h : d < 10) : digitChar d ≠ '\"' := by
  interval_cases d <;> decide

theorem natRepr_all_digits (n : Nat) : ∀ c ∈ natRepr n, c.isDigit = true := by
  intro c hc
  unfold natRepr at hc
  by_cases h : n = 0
  · simp [h] at hc
    simp [hc]
  · simp [h] at hc
    rcases hc with ⟨d, hd, rfl⟩
    rw [natDigitsAux_eq_digits n n le_rfl] at hd
    exact isDigit_digitChar d (Nat.digits_lt_base (by norm_num) hd)

theorem foldl_digits_reverse (L : List Nat) (a : Nat)
    (hL : ∀ d ∈ L, d < 10) :
    List.foldl (fun x c => x * 10 + charVal c) a (L.map digitChar).reverse
      = a * 10 ^ L.length + Nat.ofDigits 10 L := by
  induction L generalizing a with
  | nil => simp [Nat.ofDigits]
  | cons d L ih =>
    have hd : d < 10 := hL d (List.mem_cons_self d L)
    simp only [List.map_cons, List.reverse_cons, List.foldl_append, List.foldl_cons,
      List.foldl_nil]
    rw [ih a (fun x hx => hL x (List.mem_cons_of_mem d hx))]
    rw [charVal_digitChar d hd, Nat.ofDigits_cons]
    simp only [List.length_cons, pow_succ]
    ring

/-- Reading back a rendered decimal with `atoi` recovers the number. -/
theorem atoiNat_natRepr (n : Nat) : atoiNat (natRepr n) = n := by
  unfold atoiNat
  have hall := natRepr_all_digits n
  rw [List.takeWhile_eq_self_iff.mpr hall]
  unfold natRepr
  by_cases h : n = 0
  · simp [h, charVal]
  · simp only [h, if_false]
    rw [natDigitsAux_eq_digits n n le_rfl]
    rw [foldl_digits_reverse _ 0 (fun d hd => Nat.digits_lt_base (by norm_num) hd)]
    simp [Nat.ofDigits_digits]

theorem natRepr_ne_nil (n : Nat) : natRepr n ≠ [] := by
  unfold natRepr
  by_cases h : n = 0
  · simp [h]
  · simp only [h, if_false]
    intro hrev
    rw [List.reverse_eq_nil_iff, List.map_eq_nil_iff] at hrev
    rw [natDigitsAux_eq_digits n n le_rfl] at hrev
    exact h (Nat.digits_eq_nil_iff_eq_zero.mp hrev)

/-- A bookmark row (struct Row in sbm.c).  The `url` union (short buffer /
heap pointer plus `long_url` flag) is modelled as a single string, since the
flag only selects which representation holds the same address.  The six
numeric fields of `struct DateTime` are derived from `last_updated` by
`sscanf` and are never read anywhere else in the program, so only the string
is modelled. -/
structure Row where
  id : Nat
  url : CStr
  title : CStr
  comment : CStr
  last_updated : CStr
  tag_ids : List Nat
deriving DecidableEq

/-- A tag (struct Tag in sbm.c). -/
structure Tag where
  id : Nat
  name : CStr
deriving DecidableEq

/-- The row table (struct Table): `rows` models the initialized entries of the
backing array, `count` the separate `count` field that the C code uses as its
loop bound. -/
structure Table where
  rows : List Row
  count : Nat
  next_UID : Nat
deriving DecidableEq

/-- The tag store (struct Tags). -/
structure Tags where
  tags : List Tag
  count : Nat
  next_UID : Nat
deriving DecidableEq

/-- The whole in-memory store (struct Core). -/
structure Core where
  table : Table
  tags : Tags
deriving DecidableEq

/-- Zero row, as left by `memset` (used for out-of-range `getD` defaults). -/
def defaultRow : Row :=
  { id := 0, url := [], title := [], comment := [], last_updated := [],
    tag_ids := List.replicate ROW_TAG_C 0 }

/-- Zero tag, as left by `memset`. -/
def defaultTag : Tag := { id := 0, name := [] }

/-- Result of running (part of) a command: either the process called `exit`
with the given status and one-line diagnostic (carrying the in-memory store at
that moment — the file on disk is only rewritten after a normal return, so an
`exited` result means the persisted store is untouched), or the command
returned normally with the possibly mutated value. -/
inductive PRes (α : Type) where
  | exited (code : Int) (msg : String) (st : Core)
  | ok (st : α)
deriving DecidableEq

/-- Does `isdigit(s[0])` hold?  An empty C string has NUL at index 0, which is
not a digit. -/
def headDigit (s : CStr) : Bool := (s.headD ' ').isDigit

/-- The program's `stricmp(a, b) == 0`: case-insensitive string equality.
(`stricmp` itself returns the raw byte difference at the first mismatch, which
is zero exactly when the strings are equal up to case.) -/
def striEq : CStr → CStr → Bool
  | [], [] => true
  | [], _ :: _ => false
  | _ :: _, [] => false
  | a :: as, b :: bs => a.toUpper == b.toUpper && striEq as bs

/-- The program's `strcpyt(d, s, m, l)`: bounded copy of `s` into a buffer of
size `m`, where `l = -1` means "the whole string".  The ellipsis branch of the
C code is modelled verbatim; note that its guard `l >= m` is evaluated after
`l` has already been clamped to `m - 1`. -/
def strcpyt (s : CStr) (m : Nat) (l : Int) : CStr :=
  let l0 : Nat := if l = -1 then s.length else l.toNat
  let l1 : Nat := if l0 ≥ m then m - 1 else l0
  if l1 ≥ m ∧ 4 < l1 then (s.take (m - 4)) ++ [ '.', '.', '.' ] else s.take l1

/-- Diagnostic messages printed by the C code before exiting.  Messages that
interpolate a value with printf are modelled without the interpolated text. -/
def msgCapacity : String := "Cannot add anymore tags to this url entry.\n"

/-- Message for `tag <url-id> <ref>` when the tag is already on the row. -/
def msgAlreadyTagged : String := "URL entry is already tagged with %s\n"

/-- Message for `tag <url-id> <ref>` when arg 1 is not numeric. -/
def msgArg1URL : String := "arg 1 must be an URL id.\n"

/-- Message for `tag <url-id> <ref>` when no row has the id. -/
def msgUrlNotFound : String := "Could not find url with ID of %d\n"

/-- Message for `remove <id>` when arg 1 is not numeric. -/
def msgRemoveArg1 : String := "Arg 1 must be the URL ID which you want to delete\n"

/-- Message for `remove <id>` when no row has the id. -/
def msgRemoveNotFound : String := "URL ID %d could not be found.\n"

/-- Message for a tag name starting with a digit (ValidateTagName). -/
def msgTagDigit : String := "Invalid tag name. Tag names cannot start with a number.\n"

/-- Message for a reserved tag name (ValidateTagName). -/
def msgTagReserved : String := "Invalid tag name. Tag names cannot be set to reserved terms\n"

/-- Message for `tag add` with a numeric-leading name. -/
def msgTagAddDigit : String := "Tag names cannot begin with a number.\n"

/-- Message for `list -tg` when a tag token does not resolve. -/
def msgTagNotFoundList : String := "Could not find tag '%s'\n"

/-- Is the candidate name one of the four reserved command words? -/
def reservedName (s : CStr) : Bool :=
  striEq s (("add").data) || striEq s (("update").data) ||
    striEq s (("rename").data) || striEq s (("remove").data)

/-- The program's `ValidateTagName`: exits (status 0) on a digit-leading or
reserved name, otherwise normalizes embedded spaces to dashes in place. -/
def ValidateTagName (s : CStr) : Except (Int × String) CStr :=
  if headDigit s then .error (0, msgTagDigit)
  else if reservedName s then .error (0, msgTagReserved)
  else if (' ') ∈ s then .ok (s.map (fun c => if c = ' ' then '-' else c))
  else .ok s

/-- Helper for `GetTagID`: first tag in the list whose name equals `s`
byte-for-byte (C `strcmp`), returning its id, else 0. -/
def getTagIDAux (l : List Tag) (s : CStr) : Nat :=
  match l with
  | [] => 0
  | tg :: rest => if tg.name = s then tg.id else getTagIDAux rest s

/-- The program's `GetTagID`: looks a name up case-sensitively among the first
`ROW_TAG_C` (8) slots of the tag array — the C loop bound is `ROW_TAG_C`, not
`t.count`.  (When fewer than 8 entries are initialized the C code reads past
the initialized prefix; the model searches only the initialized entries.) -/
def GetTagID (t : Tags) (s : CStr) : Nat := getTagIDAux (t.tags.take ROW_TAG_C) s

/-- The program's `GetInputTagIndex`: numeric tokens are matched by id, other
tokens case-insensitively by name, over all `count` entries (live or
tombstoned).  When nothing matches, `result` keeps its initial value 0. -/
def GetInputTagIndex (c : Core) (tok : CStr) : Nat :=
  if headDigit tok then
    ((c.tags.tags.take c.tags.count).findIdx? (fun tg => tg.id == atoiNat tok)).getD 0
  else
    ((c.tags.tags.take c.tags.count).findIdx? (fun tg => striEq tg.name tok)).getD 0

/-- The program's `RowHasTagId`: scans the 8 tag slots for `id`. -/
def RowHasTagId (r : Row) (id : Nat) : Bool :=
  (List.range ROW_TAG_C).any (fun j => r.tag_ids.getD j 0 == id)

/-- Concatenation of the lists produced for each element, in order. -/
def concatMap {α β : Type} (f : α → List β) : List α → List β
  | [] => []
  | x :: xs => f x ++ concatMap f xs

/-- The program's `PrintWithTagIDs`, abstracted to return the indices of the
rows it prints, in print order (a row is printed once per matching query
tag). -/
def PrintWithTagIDs (tagIds : List Nat) (tc : Nat) (rows : List Row) (rc : Nat) :
    List Nat :=
  concatMap (fun i =>
    (List.range tc).filterMap (fun j =>
      if RowHasTagId (rows.getD i defaultRow) (tagIds.getD j 0) then some i else none))
    (List.range rc)

/-- Outcome of the slot scan shared by `UpdateRowTags` and the
`IM_TAG_ADD_TO_ENTRY` branch: the row is full, or the first free slot is `k`,
or the tag already sits in slot `k`. -/
inductive SlotScan where
  | full
  | freeAt (k : Nat)
  | dupAt (k : Nat)
deriving DecidableEq

/-- The slot scan loop of `UpdateRowTags` / `IM_TAG_ADD_TO_ENTRY`: walks the
slots remembering the first free one; a slot equal to the tag id stops the
scan. -/
def scanSlots : List Nat → Nat → Nat → Option Nat → SlotScan
  | [], _, _, none => .full
  | [], _, _, some k => .freeAt k
  | s :: rest, t, i, free =>
    if s = 0 ∧ free = none then scanSlots rest t (i + 1) (some i)
    else if s = t then .dupAt i
    else scanSlots rest t (i + 1) free

/-- Write at index `i` of the backing array; index `length` is the spare slot
the allocation keeps beyond the initialized entries, so writing there extends
the list. -/
def storeAt {α : Type} (l : List α) (i : Nat) (x : α) : List α :=
  if i < l.length then l.set i x else l ++ [x]

/-- The `IM_REMOVE` branch of `ProcessCommand` (`remove <id>`): find the row
by id, ask for confirmation, and on consent tombstone it (`id = 0`) and
decrement `count`. -/
def processRemove (c : Core) (idTok : CStr) (confirm : Char) : PRes Core :=
  if ¬ headDigit idTok then .exited (-1) msgRemoveArg1 c
  else
    match (c.table.rows.take c.table.count).findIdx? (fun r => r.id == atoiNat idTok) with
    | none => .exited (-1) msgRemoveNotFound c
    | some index =>
      if confirm = 'y' ∨ confirm = 'Y' then
        .ok { c with table := { c.table with
                rows := c.table.rows.set index
                  { (c.table.rows.getD index defaultRow) with id := 0 },
                count := c.table.count - 1 } }
      else .exited 0 (("")) c

/-- Zero every slot holding `tagId` (inner loop of the tag-remove cascade). -/
def zeroTagSlots (ids : List Nat) (tagId : Nat) : List Nat :=
  ids.map (fun t => if t = tagId then 0 else t)

/-- One row of the tag-remove cascade: matching slots are zeroed and the
timestamp refreshed; rows without the tag are untouched. -/
def cascadeRow (r : Row) (tagId : Nat) (now : CStr) : Row :=
  if tagId ∈ r.tag_ids then
    { r with tag_ids := zeroTagSlots r.tag_ids tagId, last_updated := now }
  else r

/-- The tag-remove cascade over the first `count` rows. -/
def cascadeRows (rows : List Row) (count tagId : Nat) (now : CStr) : List Row :=
  (rows.take count).map (fun r => cascadeRow r tagId now) ++ rows.drop count

/-- The `IM_TAG_REMOVE` branch of `ProcessCommand` (`tag remove <ref>`):
resolve the reference, ask for confirmation; on consent zero every row slot
referencing the tag and tombstone the tag; on decline `exit(-1)`. -/
def processTagRemove (c : Core) (tok : CStr) (confirm : Char) (now : CStr) : PRes Core :=
  match (if headDigit tok then Except.ok tok else ValidateTagName tok) with
  | .error e => .exited e.1 e.2 c
  | .ok tok' =>
    let index := GetInputTagIndex c tok'
    if confirm = 'y' ∨ confirm = 'Y' then
      let tagId := (c.tags.tags.getD index defaultTag).id
      .ok { c with
        table := { c.table with
          rows := cascadeRows c.table.rows c.table.count tagId now },
        tags := { c.tags with
          tags := c.tags.tags.set index
            { (c.tags.tags.getD index defaultTag) with id := 0 } } }
    else .exited (-1) (("")) c

/-- The `IM_TAG_ADD_TO_ENTRY` branch of `ProcessCommand`
(`tag <url-id> <tag-ref>`): validate the reference, resolve it, find the row,
scan the slots; an occupied duplicate slot exits 0, a full row exits -1,
otherwise the tag id is stored in the first free slot and the timestamp
refreshed. -/
def processTagAddToEntry (c : Core) (idTok tagTok : CStr) (now : CStr) : PRes Core :=
  if ¬ headDigit idTok then .exited (-1) msgArg1URL c
  else
    match (if ¬ headDigit tagTok then ValidateTagName tagTok else Except.ok tagTok) with
    | .error e => .exited e.1 e.2 c
    | .ok tagTok' =>
      let tagIndex := GetInputTagIndex c tagTok'
      match (c.table.rows.take c.table.count).findIdx? (fun r => r.id == atoiNat idTok) with
      | none => .exited (-1) msgUrlNotFound c
      | some urlIndex =>
        let tagId := (c.tags.tags.getD tagIndex defaultTag).id
        let row := c.table.rows.getD urlIndex defaultRow
        match scanSlots row.tag_ids tagId 0 none with
        | .dupAt _ => .exited 0 msgAlreadyTagged c
        | .full => .exited (-1) msgCapacity c
        | .freeAt k =>
          .ok { c with table := { c.table with
                  rows := c.table.rows.set urlIndex
                    { row with tag_ids := row.tag_ids.set k tagId,
                               last_updated := now } } }

/-- The program's `UpdateRowTags` (tag tokens of `update <id> -tg`): resolve
the token (numeric tokens are `atoi`ed directly; names go through
`ValidateTagName` and `GetInputTagIndex`), then scan the slots.  A duplicate
slot is a toggle: on confirmation the slot is cleared, on decline the process
exits 0.  A full row exits 0.  Otherwise the id is stored in the first free
slot.  (The caller refreshes the row's timestamp afterwards.) -/
def updateRowTags (c : Core) (rowIndex : Nat) (tagTok : CStr) (confirm : Char) : PRes Core :=
  match (if headDigit tagTok then Except.ok (atoiNat tagTok)
         else match ValidateTagName tagTok with
              | .error e => Except.error e
              | .ok t' =>
                Except.ok ((c.tags.tags.getD (GetInputTagIndex c t') defaultTag).id)
         : Except (Int × String) Nat) with
  | .error e => .exited e.1 e.2 c
  | .ok tagId =>
    let row := c.table.rows.getD rowIndex defaultRow
    match scanSlots row.tag_ids tagId 0 none with
    | .dupAt i =>
      if confirm = 'y' ∨ confirm = 'Y' then
        .ok { c with table := { c.table with
                rows := c.table.rows.set rowIndex
                  { row with tag_ids := row.tag_ids.set i 0 } } }
      else .exited 0 (("")) c
    | .full => .exited 0 msgCapacity c
    | .freeAt k =>
      .ok { c with table := { c.table with
              rows := c.table.rows.set rowIndex
                { row with tag_ids := row.tag_ids.set k tagId } } }

/-- The `IM_TAG_ADD` branch of `ProcessCommand` (`tag add <name>`): validate
the name, then append a tag with the next UID. -/
def processTagAdd (c : Core) (name : CStr) : PRes Core :=
  if ¬ headDigit name then
    match ValidateTagName name with
    | .error e => .exited e.1 e.2 c
    | .ok name' =>
      .ok { c with tags := { c.tags with
              tags := storeAt c.tags.tags c.tags.count
                { id := c.tags.next_UID, name := name' },
              count := c.tags.count + 1,
              next_UID := c.tags.next_UID + 1 } }
  else .exited (-1) msgTagAddDigit c

/-- The `IM_TAG_RENAME` branch of `ProcessCommand` (`tag rename <ref> <name>`):
resolve the reference and overwrite that slot's name.  (A digit-leading new
name only provokes a printf in the C code; execution continues.) -/
def processTagRename (c : Core) (tok newName : CStr) : PRes Core :=
  let index := GetInputTagIndex c tok
  .ok { c with tags := { c.tags with
          tags := c.tags.tags.set index
            { (c.tags.tags.getD index defaultTag) with name := newName } } }

/-- Tag-token resolution of the multi-token `IM_ADD` path (the strtok loop,
which does increment its slot index): numeric tokens are stored unvalidated,
name tokens resolve through `GetTagID` and are skipped with a non-fatal
message when unresolvable. -/
def addResolveTokens (tg : Tags) : List CStr → List Nat
  | [] => []
  | tok :: rest =>
    if headDigit tok then atoiNat tok :: addResolveTokens tg rest
    else
      let id := GetTagID tg tok
      if id = 0 then addResolveTokens tg rest
      else id :: addResolveTokens tg rest

/-- Fill the assigned tag ids into the zeroed 8-slot array of a fresh row. -/
def padTo8 (l : List Nat) : List Nat := (l ++ List.replicate ROW_TAG_C 0).take ROW_TAG_C

/-- The `IM_ADD` branch of `ProcessCommand` (`add <url> ...`).  The external
page fetch used when no `-t` title is supplied is passed in as
`fetchedTitle`; `now` is the `GetCurrentDateTime` string.  A single tag token
is written to slot 0; a space-separated token list goes through the strtok
loop. -/
def processAdd (c : Core) (url : CStr) (titleArg commentArg tagArg : Option CStr)
    (fetchedTitle : CStr) (now : CStr) : PRes Core :=
  let title := match titleArg with
    | some t => strcpyt t TITLE_S (-1)
    | none => fetchedTitle
  let comment := match commentArg with
    | some cm => strcpyt cm COMMENT_S (-1)
    | none => []
  let tagIds := match tagArg with
    | none => List.replicate ROW_TAG_C 0
    | some s =>
      if (' ') ∈ s then
        padTo8 (addResolveTokens c.tags ((s.splitOn ' ').filter (fun t => !t.isEmpty)))
      else
        if headDigit s then padTo8 [atoiNat s]
        else
          let id := GetTagID c.tags s
          if id = 0 then List.replicate ROW_TAG_C 0 else padTo8 [id]
  let row : Row :=
    { id := c.table.next_UID, url := url, title := title, comment := comment,
      last_updated := now, tag_ids := tagIds }
  .ok { c with table := { c.table with
          rows := storeAt c.table.rows c.table.count row,
          count := c.table.count + 1,
          next_UID := c.table.next_UID + 1 } }

/-- The strtok-and-resolve loop of the multi-token `IM_LIST -tg` branch.  The
C loop writes every resolved id to `tmp[i]` but never increments `i`, so each
token overwrites slot 0. -/
def listResolveLoop (c : Core) (tmp : List Nat) : List CStr → PRes (List Nat)
  | [] => .ok tmp
  | tok :: rest =>
    if headDigit tok then listResolveLoop c (tmp.set 0 (atoiNat tok)) rest
    else
      let id := GetTagID c.tags tok
      if id = 0 then .exited (-1) msgTagNotFoundList c
      else listResolveLoop c (tmp.set 0 id) rest

/-- The tag branch of `IM_LIST` (`list -tg <refs>`), abstracted to return the
printed row indices.  For a multi-token argument the C code sizes `tmp` as
(number of spaces + 1) but passes `freq` = number of spaces as the tag count
to `PrintWithTagIDs`. -/
def processListTags (c : Core) (arg : CStr) : PRes (List Nat) :=
  if (' ') ∈ arg then
    let freq := arg.count ' '
    match listResolveLoop c (List.replicate (freq + 1) 0)
        ((arg.splitOn ' ').filter (fun t => !t.isEmpty)) with
    | .exited code msg st => .exited code msg st
    | .ok tmp => .ok (PrintWithTagIDs tmp freq c.table.rows c.table.count)
  else
    if headDigit arg then .ok (PrintWithTagIDs [atoiNat arg] 1 c.table.rows c.table.count)
    else
      let id := GetTagID c.tags arg
      if id = 0 then .exited (-1) msgTagNotFoundList c
      else .ok (PrintWithTagIDs [id] 1 c.table.rows c.table.count)

/-- Return value of `WriteJSON`'s file-writing tail: -1 when the file cannot
be opened or the single `fwrite` reports a partial write, 1 otherwise. -/
def WriteJSON_ret (canOpen fullWrite : Bool) : Int :=
  if canOpen = false then -1 else if fullWrite = false then -1 else 1

/-- The tail of `main` after `ProcessCommand` returns: it checks
`WriteJSON(&core) < 1`, prints "Could not save to JSON" when that holds, and
then falls through to `return 0` regardless.  Result: (exit status, whether
the save-error message was printed). -/
def main_tail (canOpen fullWrite : Bool) : Int × Bool :=
  (0, decide (WriteJSON_ret canOpen fullWrite < 1))

/-- A JSON string literal: `"` body `"`.  (`WriteJSON` never escapes, so the
body is emitted verbatim.) -/
def quoteStr (s : CStr) : CStr := '\"' :: s ++ [ '\"' ]

/-- Opening of `WriteJSON`'s output. -/
def hdrTop : CStr := ("\x7b\n\t\"tags\":\x7b\n").data

/-- Text between the tags section and the rows section. -/
def hdrRows : CStr := ("\t\x7d,\n\t\"rows\":\x7b\n").data

/-- Closing of `WriteJSON`'s output. -/
def hdrEnd : CStr := ("\t\x7d\n\x7d\n").data

/-- One tags-section line: `\t\t"<id>": "<name>"`. -/
def tagEntryStr (t : Tag) : CStr :=
  ("\t\t").data ++ quoteStr (natRepr t.id) ++ (": ").data ++ quoteStr t.name

/-- The inner tag-id array of a row: 8 quoted decimals joined by `", "`. -/
def tagIdsStr (ids : List Nat) : CStr :=
  concatMap (fun j =>
      quoteStr (natRepr (ids.getD j 0)) ++ (if j ≠ ROW_TAG_C - 1 then (", ").data else []))
    (List.range ROW_TAG_C)

/-- One rows-section line up to (excluding) its closing `]]`:
`\t\t"<id>": ["<url>", "<title>", "<comment>", "<stamp>", [<ids>`. -/
def rowEntryStr (r : Row) : CStr :=
  ("\t\t").data ++ quoteStr (natRepr r.id) ++ (": [").data ++ quoteStr r.url
    ++ (", ").data ++ quoteStr r.title ++ (", ").data ++ quoteStr r.comment
    ++ (", ").data ++ quoteStr r.last_updated ++ (", [").data ++ tagIdsStr r.tag_ids

/-- The per-entry loop of `WriteJSON`'s two sections: entry `i` is skipped
when tombstoned, and otherwise followed by `",\n"` — except at index
`count - 1`, where `"\n"` is emitted instead.  (The separator choice looks at
the index, not at whether a later live entry exists.) -/
def sectionFoldGo {α : Type} (live : α → Bool) (entry : α → CStr) (count : Nat) :
    Nat → List α → CStr
  | _, [] => []
  | i, x :: rest =>
    (if live x then
      entry x ++ (if i ≠ count - 1 then (",\n").data else ("\n").data)
    else [])
      ++ sectionFoldGo live entry count (i + 1) rest

/-- Row liveness test used by `WriteJSON`. -/
def rowLive (r : Row) : Bool := r.id != 0

/-- Tag liveness test used by `WriteJSON`. -/
def tagLive (t : Tag) : Bool := t.id != 0

/-- Full rows-section line including the closing `]]` (the C code emits
`"]],\n"` / `"]]\n"` as the separator, which concatenates to the same
bytes). -/
def rowEntryFull (r : Row) : CStr := rowEntryStr r ++ ("]]").data

/-- The string `WriteJSON` builds in `LARGE_BUFFER` (the pure part of
`WriteJSON`, before the file write). -/
def WriteJSON_str (c : Core) : CStr :=
  hdrTop
    ++ sectionFoldGo tagLive tagEntryStr c.tags.count 0 (c.tags.tags.take c.tags.count)
    ++ hdrRows
    ++ sectionFoldGo rowLive rowEntryFull c.table.count 0 (c.table.rows.take c.table.count)
    ++ hdrEnd

/-- Entries joined by a separator, with a single `"\n"` after the last entry
and nothing at all for an empty section: the separator-correct section
layout. -/
def glue (sep : CStr) : List CStr → CStr
  | [] => []
  | [x] => x ++ ("\n").data
  | x :: xs => x ++ sep ++ glue sep xs

/-- The separator-correct rendering of a store holding exactly the given live
entries: tombstones absent, no separator after the last entry of either
section. -/
def renderFile (ts : List Tag) (rs : List Row) : CStr :=
  hdrTop ++ glue ((",\n").data) (ts.map tagEntryStr)
    ++ hdrRows ++ glue ((",\n").data) (rs.map rowEntryFull)
    ++ hdrEnd

/-- The live tags of a store, in order. -/
def liveTags (c : Core) : List Tag := (c.tags.tags.take c.tags.count).filter tagLive

/-- The live rows of a store, in order. -/
def liveRows (c : Core) : List Row := (c.table.rows.take c.table.count).filter rowLive

theorem filter_ne_nil_of_getLast {α : Type} (live : α → Bool) :
    ∀ (l : List α) (x : α), l.getLast? = some x → live x = true →
      l.filter live ≠ [] := by
  intro l
  induction l with
  | nil => intro x hx _; simp at hx
  | cons a t ih =>
    intro x hx hlive
    match t with
    | [] =>
      simp at hx
      subst hx
      simp [List.filter, hlive]
    | b :: t' =>
      have hx' : (b :: t').getLast? = some x := by
        rw [List.getLast?_cons_cons] at hx
        exact hx
      have := ih x hx' hlive
      intro hcontra
      rcases List.filter_eq_nil_iff.mp hcontra with hall
      exact this (List.filter_eq_nil_iff.mpr (fun y hy => hall y (List.mem_cons_of_mem a hy)))

theorem sectionFoldGo_nil {α : Type} (live : α → Bool) (entry : α → CStr)
    (count i : Nat) : sectionFoldGo live entry count i [] = [] := rfl

theorem sectionFoldGo_cons {α : Type} (live : α → Bool) (entry : α → CStr)
    (count i : Nat) (x : α) (xs : List α) :
    sectionFoldGo live entry count i (x :: xs) =
      (if live x then
        entry x ++ (if i ≠ count - 1 then (",\n").data else ("\n").data)
      else []) ++ sectionFoldGo live entry count (i + 1) xs := rfl

theorem glue_nil (sep : CStr) : glue sep [] = [] := rfl

theorem glue_single (sep : CStr) (x : CStr) : glue sep [x] = x ++ ("\n").data := rfl

theorem glue_cons₂ (sep : CStr) (x y : CStr) (ys : List CStr) :
    glue sep (x :: y :: ys) = x ++ sep ++ glue sep (y :: ys) := rfl

/-- When the entry at index `count - 1` is live, the C section loop produces
exactly the separator-correct glued layout of the live entries. -/
theorem sectionFoldGo_eq_glue {α : Type} (live : α → Bool) (entry : α → CStr) :
    ∀ (l : List α) (i count : Nat), i + l.length = count →
      (∀ x, l.getLast? = some x → live x = true) →
      sectionFoldGo live entry count i l =
        glue ((",\n").data) ((l.filter live).map entry) := by
  intro l
  induction l with
  | nil => intro i count _ _; simp [sectionFoldGo_nil, glue_nil]
  | cons a t ih =>
    intro i count hcount hlast
    match t with
    | [] =>
      have ha : live a = true := hlast a (by simp)
      have hi : i = count - 1 := by
        simp only [List.length_cons, List.length_nil] at hcount
        omega
      rw [sectionFoldGo_cons, sectionFoldGo_nil, if_pos ha, if_neg (by omega)]
      rw [List.filter_cons_of_pos ha, List.filter_nil, List.map_cons, List.map_nil,
        glue_single, List.append_nil]
    | b :: t' =>
      have hi : i ≠ count - 1 := by
        simp only [List.length_cons] at hcount
        omega
      have hlast' : ∀ x, (b :: t').getLast? = some x → live x = true := by
        intro x hx
        exact hlast x (by rw [List.getLast?_cons_cons]; exact hx)
      have hrec := ih (i + 1) count
        (by simp only [List.length_cons] at hcount ⊢; omega) hlast'
      by_cases ha : live a = true
      · have hy : (b :: t').getLast? = some ((b :: t').getLast (by simp)) :=
          List.getLast?_eq_getLast _ (by simp)
        have hfil : (b :: t').filter live ≠ [] :=
          filter_ne_nil_of_getLast live (b :: t') _ hy (hlast' _ hy)
        obtain ⟨z, zs, hz⟩ := List.exists_cons_of_ne_nil hfil
        rw [sectionFoldGo_cons, if_pos ha, if_pos hi, hrec,
          List.filter_cons_of_pos ha, hz]
        simp [List.map_cons, glue_cons₂, List.append_assoc]
      · have ha' : live a = false := by
          cases h : live a
          · rfl
          · exact absurd h ha
        have hfa : List.filter live (a :: b :: t') = List.filter live (b :: t') :=
          List.filter_cons_of_neg (by simp [ha'])
        rw [sectionFoldGo_cons, if_neg (by simp [ha']), List.nil_append, hrec, hfa]

/-- The referential-integrity invariant of the spec: every non-zero tag slot
of every row (within the live `count` range) references a live tag of the
store, and no row holds the same non-zero tag id twice. -/
def refIntegrity (c : Core) : Prop :=
  ∀ r ∈ c.table.rows.take c.table.count,
    (∀ t ∈ r.tag_ids, t ≠ 0 →
      ∃ tg ∈ c.tags.tags.take c.tags.count, tg.id = t ∧ tg.id ≠ 0) ∧
    List.Nodup (r.tag_ids.filter (fun t => t != 0))

/-- When the last initialized slot of each section holds a live entry (in
particular whenever the store holds only live entries), `WriteJSON` produces
the separator-correct layout of exactly the live entries. -/
theorem WriteJSON_str_eq_renderFile (c : Core)
    (htlen : c.tags.count ≤ c.tags.tags.length)
    (hrlen : c.table.count ≤ c.table.rows.length)
    (htag : ∀ x, (c.tags.tags.take c.tags.count).getLast? = some x → tagLive x = true)
    (hrow : ∀ x, (c.table.rows.take c.table.count).getLast? = some x → rowLive x = true) :
    WriteJSON_str c = renderFile (liveTags c) (liveRows c) := by
  unfold WriteJSON_str renderFile liveTags liveRows
  rw [sectionFoldGo_eq_glue tagLive tagEntryStr _ 0 c.tags.count
    (by simp [List.length_take]; omega) htag]
  rw [sectionFoldGo_eq_glue rowLive rowEntryFull _ 0 c.table.count
    (by simp [List.length_take]; omega) hrow]

/-- The textual content of one parsed row: the four quoted fields and the
inner array of quoted tag ids, exactly as they stand in the file. -/
structure JRowT where
  url : CStr
  title : CStr
  comment : CStr
  dt : CStr
  tags : List CStr
deriving DecidableEq

/-- The parse tree of a store file: the `tags` members (decimal-id string,
name string) and the `rows` members (decimal-id string, row tuple), in file
order. -/
structure JFileT where
  tags : List (CStr × CStr)
  rows : List (CStr × JRowT)
deriving DecidableEq

/-- Whitespace accepted between tokens. -/
def isWsChar (ch : Char) : Bool := ch = ' ' || ch = '\n' || ch = '\t' || ch = '\r'

/-- Skip inter-token whitespace. -/
def skipWs (s : CStr) : CStr := s.dropWhile isWsChar

/-- Modelled from the spec: the string scalars of json.h's `json_parse`
(an external dependency, not under src/).  `WriteJSON` never emits escape
sequences, so a scalar is the raw text between two quotes. -/
def parseStringLit : CStr → Option (CStr × CStr)
  | [] => none
  | c :: rest =>
    if c = '\"' then
      match rest.dropWhile (fun x => x != '\"') with
      | c2 :: rest2 =>
        if c2 = '\"' then some (rest.takeWhile (fun x => x != '\"'), rest2)
        else none
      | [] => none
    else none

/-- Modelled from the spec: consume one punctuation token, skipping leading
whitespace. -/
def expectChar (c : Char) (s : CStr) : Option CStr :=
  match skipWs s with
  | [] => none
  | x :: rest => if x = c then some rest else none

/-- Modelled from the spec: a non-empty comma-separated list of quoted
strings; after a comma another string is mandatory (JSON admits no trailing
separator). -/
def parseStrItemsNE : Nat → CStr → Option (List CStr × CStr)
  | 0, _ => none
  | fuel + 1, s =>
    (parseStringLit (skipWs s)).bind fun p =>
    match skipWs p.2 with
    | [] => none
    | y :: r3 =>
      if y = ',' then
        (parseStrItemsNE fuel r3).bind fun q => some (p.1 :: q.1, q.2)
      else if y = ']' then some ([p.1], r3)
      else none

/-- Modelled from the spec: the fixed-capacity tag-id array of a row — a
bracketed, comma-separated list of quoted decimal strings (the opening `[`
already consumed). -/
def parseStrItems (fuel : Nat) (s : CStr) : Option (List CStr × CStr) :=
  match skipWs s with
  | [] => none
  | x :: rest => if x = ']' then some ([], rest) else parseStrItemsNE fuel s

/-- Modelled from the spec: one `tags` member, `"id": "name"`. -/
def parseTagMember (s : CStr) : Option ((CStr × CStr) × CStr) :=
  (parseStringLit (skipWs s)).bind fun p =>
  (expectChar ':' p.2).bind fun r2 =>
  (parseStringLit (skipWs r2)).bind fun q =>
  some ((p.1, q.1), q.2)

/-- Modelled from the spec: a non-empty member list of the `tags` section;
after a comma another member is mandatory (JSON admits no trailing
separator). -/
def parseTagMembersNE : Nat → CStr → Option (List (CStr × CStr) × CStr)
  | 0, _ => none
  | fuel + 1, s =>
    (parseTagMember s).bind fun m =>
    match skipWs m.2 with
    | [] => none
    | y :: r4 =>
      if y = ',' then
        (parseTagMembersNE fuel r4).bind fun q => some (m.1 :: q.1, q.2)
      else if y = '\x7d' then some ([m.1], r4)
      else none

/-- Modelled from the spec: the members of the `tags` section up to and
including its closing brace. -/
def parseTagMembers (fuel : Nat) (s : CStr) : Option (List (CStr × CStr) × CStr) :=
  match skipWs s with
  | [] => none
  | x :: rest => if x = '\x7d' then some ([], rest) else parseTagMembersNE fuel s

/-- Modelled from the spec: one row value, the ordered tuple
`[url, title, comment, stamp, [ids]]`. -/
def parseRowValue (s : CStr) : Option (JRowT × CStr) :=
  (expectChar '[' s).bind fun s1 =>
  (parseStringLit (skipWs s1)).bind fun pu =>
  (expectChar ',' pu.2).bind fun s3 =>
  (parseStringLit (skipWs s3)).bind fun pt =>
  (expectChar ',' pt.2).bind fun s5 =>
  (parseStringLit (skipWs s5)).bind fun pc =>
  (expectChar ',' pc.2).bind fun s7 =>
  (parseStringLit (skipWs s7)).bind fun pd =>
  (expectChar ',' pd.2).bind fun s9 =>
  (expectChar '[' s9).bind fun s10 =>
  (parseStrItems (s10.length + 1) s10).bind fun pa =>
  (expectChar ']' pa.2).bind fun s12 =>
  some (⟨pu.1, pt.1, pc.1, pd.1, pa.1⟩, s12)

/-- Modelled from the spec: one `rows` member, `"id": [tuple]`. -/
def parseRowMember (s : CStr) : Option ((CStr × JRowT) × CStr) :=
  (parseStringLit (skipWs s)).bind fun p =>
  (expectChar ':' p.2).bind fun r2 =>
  (parseRowValue r2).bind fun q =>
  some ((p.1, q.1), q.2)

/-- Modelled from the spec: a non-empty member list of the `rows` section;
after a comma another member is mandatory (JSON admits no trailing
separator). -/
def parseRowMembersNE : Nat → CStr → Option (List (CStr × JRowT) × CStr)
  | 0, _ => none
  | fuel + 1, s =>
    (parseRowMember s).bind fun m =>
    match skipWs m.2 with
    | [] => none
    | y :: r4 =>
      if y = ',' then
        (parseRowMembersNE fuel r4).bind fun q => some (m.1 :: q.1, q.2)
      else if y = '\x7d' then some ([m.1], r4)
      else none

/-- Modelled from the spec: the members of the `rows` section up to and
including its closing brace. -/
def parseRowMembers (fuel : Nat) (s : CStr) : Option (List (CStr × JRowT) × CStr) :=
  match skipWs s with
  | [] => none
  | x :: rest => if x = '\x7d' then some ([], rest) else parseRowMembersNE fuel s

/-- Modelled from the spec: json.h's `json_parse` composed with the
structural checks `ReadJSON` performs on the tree — exactly two top-level
sections named `tags` then `rows`, each a brace-delimited member list, with
nothing but whitespace after the final brace.  The decode errors the spec
declares fatal (malformed structure, wrong field counts) are `none`. -/
def json_parse_file (s : CStr) : Option JFileT :=
  (expectChar '\x7b' s).bind fun s1 =>
  (parseStringLit (skipWs s1)).bind fun k1 =>
  if k1.1 = ("tags").data then
    (expectChar ':' k1.2).bind fun s3 =>
    (expectChar '\x7b' s3).bind fun s4 =>
    (parseTagMembers (s4.length + 1) s4).bind fun ptags =>
    (expectChar ',' ptags.2).bind fun s6 =>
    (parseStringLit (skipWs s6)).bind fun k2 =>
    if k2.1 = ("rows").data then
      (expectChar ':' k2.2).bind fun s8 =>
      (expectChar '\x7b' s8).bind fun s9 =>
      (parseRowMembers (s9.length + 1) s9).bind fun prows =>
      (expectChar '\x7d' prows.2).bind fun s11 =>
      if skipWs s11 = [] then some ⟨ptags.1, prows.1⟩ else none
    else none
  else none

/-- One tag as `ReadJSON` stores it: id via `atoi` of the member name, name
truncated to the fixed field. -/
def readTagEntry (p : CStr × CStr) : Tag :=
  { id := atoiNat p.1, name := p.2.take (TAG_NAME_S - 1) }

/-- One row as `ReadJSON` stores it: id via `atoi`, bounded copies of the
fields, timestamp asserted shorter than 20 bytes, the non-empty tag array
`atoi`ed into the zeroed 8-slot array.  (Failed `assert`s abort the load:
`none`.) -/
def readRowEntry (p : CStr × JRowT) : Option Row :=
  if p.2.dt.length < 20 ∧ p.2.tags ≠ [] then
    some { id := atoiNat p.1, url := p.2.url,
           title := p.2.title.take (TITLE_S - 1),
           comment := p.2.comment.take (COMMENT_S - 1),
           last_updated := p.2.dt.take 19,
           tag_ids := ((p.2.tags.map atoiNat) ++
             List.replicate ROW_TAG_C 0).take ROW_TAG_C }
  else none

/-- The row loop of `ReadJSON`: every row must load. -/
def readRowEntries : List (CStr × JRowT) → Option (List Row)
  | [] => some []
  | p :: rest =>
    match readRowEntry p, readRowEntries rest with
    | some r, some rs => some (r :: rs)
    | _, _ => none

/-- The running `Max` accumulation `ReadJSON` performs over the ids it reads
(both accumulators start at 0). -/
def maxFold (l : List Nat) : Nat := l.foldl Max.max 0

/-- `ReadJSON` on the parsed tree: build the tag and row arrays in file
order, set `count` to the number of entries, and recompute both counters as
the running maximum id plus one. -/
def ReadJSON_entries (f : JFileT) : Option Core :=
  match readRowEntries f.rows with
  | none => none
  | some rows =>
    let tags := f.tags.map readTagEntry
    some { table := { rows := rows, count := rows.length, next_UID := maxFold (rows.map (fun r => r.id)) + 1 }, tags := { tags := tags, count := tags.length, next_UID := maxFold (tags.map (fun t => t.id)) + 1 } }

/-- The whole decode direction: `json_parse` (spec-modelled) followed by
`ReadJSON`'s tree walk. -/
def decode (s : CStr) : Option Core :=
  (json_parse_file s).bind ReadJSON_entries

theorem skipWs_ws (ch : Char) (X : CStr) (h : isWsChar ch = true) :
    skipWs (ch :: X) = skipWs X := by
  simp [skipWs, List.dropWhile_cons, h]

theorem skipWs_not (ch : Char) (X : CStr) (h : isWsChar ch = false) :
    skipWs (ch :: X) = ch :: X := by
  simp [skipWs, List.dropWhile_cons, h]

theorem skipWs_tab (X : CStr) : skipWs ('\t' :: X) = skipWs X :=
  skipWs_ws _ _ (by decide)

theorem skipWs_nl (X : CStr) : skipWs ('\n' :: X) = skipWs X :=
  skipWs_ws _ _ (by decide)

theorem skipWs_sp (X : CStr) : skipWs (' ' :: X) = skipWs X :=
  skipWs_ws _ _ (by decide)

theorem skipWs_quote (X : CStr) : skipWs ('\"' :: X) = '\"' :: X :=
  skipWs_not _ _ (by decide)

theorem skipWs_rbrace (X : CStr) : skipWs ('\x7d' :: X) = '\x7d' :: X :=
  skipWs_not _ _ (by decide)

theorem skipWs_comma (X : CStr) : skipWs (',' :: X) = ',' :: X :=
  skipWs_not _ _ (by decide)

theorem skipWs_rbrack (X : CStr) : skipWs (']' :: X) = ']' :: X :=
  skipWs_not _ _ (by decide)

theorem quoteStr_append (a Y : CStr) :
    quoteStr a ++ Y = '\"' :: (a ++ ('\"' :: Y)) := by
  simp [quoteStr]

theorem takeWhile_ne_quote (s : CStr) (rest : CStr) (h : '\"' ∉ s) :
    (s ++ '\"' :: rest).takeWhile (fun x => x != '\"') = s := by
  induction s with
  | nil => simp
  | cons c t ih =>
    have hc : c ≠ '\"' := fun hcq => h (hcq ▸ List.mem_cons_self c t)
    have ht : '\"' ∉ t := fun hm => h (List.mem_cons_of_mem c hm)
    simp only [List.cons_append, List.takeWhile_cons]
    simp [hc, ih ht]

theorem dropWhile_ne_quote (s : CStr) (rest : CStr) (h : '\"' ∉ s) :
    (s ++ '\"' :: rest).dropWhile (fun x => x != '\"') = '\"' :: rest := by
  induction s with
  | nil => simp
  | cons c t ih =>
    have hc : c ≠ '\"' := fun hcq => h (hcq ▸ List.mem_cons_self c t)
    have ht : '\"' ∉ t := fun hm => h (List.mem_cons_of_mem c hm)
    simp only [List.cons_append, List.dropWhile_cons]
    simp [hc, ih ht]

theorem parseStringLit_quoteStr (s rest : CStr) (h : '\"' ∉ s) :
    parseStringLit (quoteStr s ++ rest) = some (s, rest) := by
  rw [quoteStr_append]
  simp only [parseStringLit]
  rw [dropWhile_ne_quote s rest h]
  simp [takeWhile_ne_quote s rest h]

theorem expectChar_eq (c : Char) (X : CStr) (h : isWsChar c = false) :
    expectChar c (c :: X) = some X := by
  unfold expectChar
  rw [skipWs_not c X h]
  simp

theorem expectChar_ws (c ch : Char) (X : CStr) (h : isWsChar ch = true) :
    expectChar c (ch :: X) = expectChar c X := by
  unfold expectChar
  rw [skipWs_ws ch X h]

theorem expectChar_colon (X : CStr) : expectChar ':' (':' :: X) = some X :=
  expectChar_eq _ _ (by decide)

theorem expectChar_comma (X : CStr) : expectChar ',' (',' :: X) = some X :=
  expectChar_eq _ _ (by decide)

theorem expectChar_lbrack (X : CStr) : expectChar '[' ('[' :: X) = some X :=
  expectChar_eq _ _ (by decide)

theorem expectChar_rbrack (X : CStr) : expectChar ']' (']' :: X) = some X :=
  expectChar_eq _ _ (by decide)

theorem expectChar_lbrace (X : CStr) : expectChar '\x7b' ('\x7b' :: X) = some X :=
  expectChar_eq _ _ (by decide)

theorem expectChar_rbrace (X : CStr) : expectChar '\x7d' ('\x7d' :: X) = some X :=
  expectChar_eq _ _ (by decide)

theorem expectChar_tab (c : Char) (X : CStr) :
    expectChar c ('\t' :: X) = expectChar c X := expectChar_ws _ _ _ (by decide)

theorem expectChar_nl (c : Char) (X : CStr) :
    expectChar c ('\n' :: X) = expectChar c X := expectChar_ws _ _ _ (by decide)

theorem expectChar_sp (c : Char) (X : CStr) :
    expectChar c (' ' :: X) = expectChar c X := expectChar_ws _ _ _ (by decide)

theorem quote_not_mem_natRepr (n : Nat) : '\"' ∉ natRepr n := by
  intro hm
  have := natRepr_all_digits n _ hm
  simp at this

theorem skipWs_quoteStr (a X : CStr) : skipWs (quoteStr a ++ X) = quoteStr a ++ X := by
  rw [quoteStr_append]
  exact skipWs_quote _

theorem tagEntryStr_append (t : Tag) (tail : CStr) :
    tagEntryStr t ++ tail =
      '\t' :: '\t' :: (quoteStr (natRepr t.id) ++
        (':' :: ' ' :: (quoteStr t.name ++ tail))) := by
  simp [tagEntryStr, List.append_assoc]

theorem parseTagMember_ws (ch : Char) (X : CStr) (h : isWsChar ch = true) :
    parseTagMember (ch :: X) = parseTagMember X := by
  unfold parseTagMember
  rw [skipWs_ws ch X h]

theorem parseTagMember_entry (t : Tag) (tail : CStr) (hn : '\"' ∉ t.name) :
    parseTagMember (tagEntryStr t ++ tail) = some ((natRepr t.id, t.name), tail) := by
  rw [tagEntryStr_append]
  unfold parseTagMember
  rw [skipWs_tab, skipWs_tab, skipWs_quoteStr,
    parseStringLit_quoteStr _ _ (quote_not_mem_natRepr t.id)]
  simp only [Option.some_bind]
  rw [expectChar_colon]
  simp only [Option.some_bind]
  rw [skipWs_sp, skipWs_quoteStr, parseStringLit_quoteStr _ _ hn]
  simp only [Option.some_bind]

theorem parseTagMembersNE_ws (fuel : Nat) (ch : Char) (X : CStr)
    (h : isWsChar ch = true) :
    parseTagMembersNE fuel (ch :: X) = parseTagMembersNE fuel X := by
  cases fuel with
  | zero => rfl
  | succ f => simp only [parseTagMembersNE, parseTagMember_ws ch X h]

theorem parseTagMembers_of_head (fuel : Nat) (s : CStr) (x : Char) (r : CStr)
    (hx : skipWs s = x :: r) (hne : x ≠ '\x7d') :
    parseTagMembers fuel s = parseTagMembersNE fuel s := by
  simp only [parseTagMembers, hx]
  simp [hne]

theorem parseTagMembers_close (fuel : Nat) (s : CStr) (r : CStr)
    (hx : skipWs s = '\x7d' :: r) :
    parseTagMembers fuel s = some ([], r) := by
  simp only [parseTagMembers, hx]
  simp

theorem skipWs_tagEntry (t : Tag) (X : CStr) :
    skipWs (tagEntryStr t ++ X) =
      '\"' :: (natRepr t.id ++ ('\"' :: (':' :: ' ' :: (quoteStr t.name ++ X)))) := by
  rw [tagEntryStr_append, skipWs_tab, skipWs_tab, skipWs_quoteStr, quoteStr_append]

theorem parseTagMembersNE_glue :
    ∀ (ts : List Tag) (fuel : Nat) (rest : CStr), ts ≠ [] →
      ts.length ≤ fuel → (∀ t ∈ ts, '\"' ∉ t.name) →
      parseTagMembersNE fuel
        (glue ((",\n").data) (ts.map tagEntryStr) ++ ('\t' :: '\x7d' :: rest))
        = some (ts.map (fun t => (natRepr t.id, t.name)), rest) := by
  intro ts
  induction ts with
  | nil => intro fuel rest hne _ _; exact absurd rfl hne
  | cons t ts' ih =>
    intro fuel rest _ hfuel hq
    obtain ⟨f, rfl⟩ : ∃ f, fuel = f + 1 :=
      ⟨fuel - 1, by simp only [List.length_cons] at hfuel; omega⟩
    have hqt : '\"' ∉ t.name := hq t (List.mem_cons_self t ts')
    match ts' with
    | [] =>
      have hin : glue ((",\n").data) ((t :: ([] : List Tag)).map tagEntryStr)
            ++ ('\t' :: '\x7d' :: rest)
          = tagEntryStr t ++ ('\n' :: '\t' :: '\x7d' :: rest) := by
        simp [glue_single, List.append_assoc]
      rw [hin]
      simp only [parseTagMembersNE]
      rw [parseTagMember_entry t _ hqt]
      simp only [Option.some_bind]
      rw [skipWs_nl, skipWs_tab, skipWs_rbrace]
      simp
    | u :: us =>
      have hin : glue ((",\n").data) ((t :: u :: us).map tagEntryStr)
            ++ ('\t' :: '\x7d' :: rest)
          = tagEntryStr t ++ (',' :: '\n' ::
              (glue ((",\n").data) ((u :: us).map tagEntryStr)
                ++ ('\t' :: '\x7d' :: rest))) := by
        simp [glue_cons₂, List.append_assoc]
      rw [hin]
      simp only [parseTagMembersNE]
      rw [parseTagMember_entry t _ hqt]
      simp only [Option.some_bind]
      rw [skipWs_comma]
      have hrec : parseTagMembersNE f ('\n' ::
          (glue ((",\n").data) ((u :: us).map tagEntryStr) ++ ('\t' :: '\x7d' :: rest)))
          = some ((u :: us).map (fun x => (natRepr x.id, x.name)), rest) := by
        rw [parseTagMembersNE_ws f '\n' _ (by decide)]
        exact ih f rest (by simp)
          (by simp only [List.length_cons] at hfuel ⊢; omega)
          (fun x hx => hq x (List.mem_cons_of_mem t hx))
      show (parseTagMembersNE f ('\n' ::
          (glue ((",\n").data) ((u :: us).map tagEntryStr)
            ++ ('\t' :: '\x7d' :: rest)))).bind
          (fun a => some ((natRepr t.id, t.name) :: a.1, a.2))
        = some ((t :: u :: us).map (fun x => (natRepr x.id, x.name)), rest)
      rw [hrec]
      simp

theorem parseTagMembers_glue (ts : List Tag) (fuel : Nat) (rest : CStr)
    (hfuel : ts.length ≤ fuel) (hq : ∀ t ∈ ts, '\"' ∉ t.name) :
    parseTagMembers fuel
      (glue ((",\n").data) (ts.map tagEntryStr) ++ ('\t' :: '\x7d' :: rest))
      = some (ts.map (fun t => (natRepr t.id, t.name)), rest) := by
  match ts with
  | [] =>
    have hx : skipWs (glue ((",\n").data) (([] : List Tag).map tagEntryStr)
        ++ ('\t' :: '\x7d' :: rest)) = '\x7d' :: rest := by
      simp [glue_nil, skipWs_tab, skipWs_rbrace]
    rw [parseTagMembers_close fuel _ rest hx]
    simp
  | t :: ts' =>
    have hsplit : ∃ X, glue ((",\n").data) ((t :: ts').map tagEntryStr)
        ++ ('\t' :: '\x7d' :: rest) = tagEntryStr t ++ X := by
      match ts' with
      | [] =>
        exact ⟨'\n' :: '\t' :: '\x7d' :: rest, by simp [glue_single, List.append_assoc]⟩
      | u :: us =>
        exact ⟨',' :: '\n' :: (glue ((",\n").data) ((u :: us).map tagEntryStr)
          ++ ('\t' :: '\x7d' :: rest)), by simp [glue_cons₂, List.append_assoc]⟩
    obtain ⟨X, hX⟩ := hsplit
    have hx : skipWs (glue ((",\n").data) ((t :: ts').map tagEntryStr)
        ++ ('\t' :: '\x7d' :: rest)) = '\"' ::
          (natRepr t.id ++ ('\"' :: (':' :: ' ' :: (quoteStr t.name ++ X)))) := by
      rw [hX, skipWs_tagEntry]
    rw [parseTagMembers_of_head fuel _ _ _ hx (by decide)]
    exact parseTagMembersNE_glue (t :: ts') fuel rest (by simp) hfuel hq

/-- Entries joined by a bare separator (no trailing text): the shape of the
inner tag-id array. -/
def sepJoin (sep : CStr) : List CStr → CStr
  | [] => []
  | [x] => x
  | x :: xs => x ++ sep ++ sepJoin sep xs

theorem sepJoin_single (sep x : CStr) : sepJoin sep [x] = x := rfl

theorem sepJoin_cons₂ (sep x y : CStr) (ys : List CStr) :
    sepJoin sep (x :: y :: ys) = x ++ sep ++ sepJoin sep (y :: ys) := rfl

theorem sepJoin_length_ge (sep : CStr) :
    ∀ l : List CStr, (∀ x ∈ l, 1 ≤ x.length) → l.length ≤ (sepJoin sep l).length := by
  intro l
  induction l with
  | nil => simp
  | cons x xs ih =>
    intro h
    match xs with
    | [] =>
      have := h x (by simp)
      simp only [sepJoin_single, List.length_cons, List.length_nil]
      omega
    | y :: ys =>
      have hx := h x (by simp)
      have hrec := ih (fun z hz => h z (List.mem_cons_of_mem x hz))
      rw [sepJoin_cons₂]
      simp only [List.length_cons, List.length_append] at hrec ⊢
      omega

theorem tagIdsStr_eq_sepJoin (ids : List Nat) (h : ids.length = ROW_TAG_C) :
    tagIdsStr ids =
      sepJoin ((", ").data) (ids.map (fun n => quoteStr (natRepr n))) := by
  obtain ⟨a1, l1, rfl⟩ := List.exists_of_length_succ ids h
  have h1 : l1.length = 7 := by simpa [ROW_TAG_C] using h
  obtain ⟨a2, l2, rfl⟩ := List.exists_of_length_succ l1 h1
  have h2 : l2.length = 6 := by simpa using h1
  obtain ⟨a3, l3, rfl⟩ := List.exists_of_length_succ l2 h2
  have h3 : l3.length = 5 := by simpa using h2
  obtain ⟨a4, l4, rfl⟩ := List.exists_of_length_succ l3 h3
  have h4 : l4.length = 4 := by simpa using h3
  obtain ⟨a5, l5, rfl⟩ := List.exists_of_length_succ l4 h4
  have h5 : l5.length = 3 := by simpa using h4
  obtain ⟨a6, l6, rfl⟩ := List.exists_of_length_succ l5 h5
  have h6 : l6.length = 2 := by simpa using h5
  obtain ⟨a7, l7, rfl⟩ := List.exists_of_length_succ l6 h6
  have h7 : l7.length = 1 := by simpa using h6
  obtain ⟨a8, l8, rfl⟩ := List.exists_of_length_succ l7 h7
  have h8 : l8.length = 0 := by simpa using h7
  rw [List.length_eq_zero] at h8
  subst h8
  have hr : List.range 8 = [0, 1, 2, 3, 4, 5, 6, 7] := by decide
  unfold tagIdsStr
  rw [show ROW_TAG_C = 8 from rfl, hr]
  simp [concatMap, sepJoin, quoteStr]

theorem parseStrItemsNE_ws (fuel : Nat) (ch : Char) (X : CStr)
    (h : isWsChar ch = true) :
    parseStrItemsNE fuel (ch :: X) = parseStrItemsNE fuel X := by
  cases fuel with
  | zero => rfl
  | succ f => simp only [parseStrItemsNE, skipWs_ws ch X h]

theorem parseStrItems_of_head (fuel : Nat) (s : CStr) (x : Char) (r : CStr)
    (hx : skipWs s = x :: r) (hne : x ≠ ']') :
    parseStrItems fuel s = parseStrItemsNE fuel s := by
  simp only [parseStrItems, hx]
  simp [hne]

theorem sepJoin_quote_head (i : CStr) (more : List CStr) (sep Y : CStr) :
    ∃ r, sepJoin sep ((i :: more).map quoteStr) ++ Y = '\"' :: r := by
  match more with
  | [] => exact ⟨i ++ ('\"' :: Y), by simp [sepJoin_single, quoteStr_append]⟩
  | j :: js =>
    refine ⟨i ++ ('\"' :: (sep ++ (sepJoin sep ((j :: js).map quoteStr) ++ Y))), ?_⟩
    simp [sepJoin_cons₂, List.append_assoc, quoteStr_append]

theorem parseStrItemsNE_render :
    ∀ (items : List CStr) (fuel : Nat) (rest : CStr), items ≠ [] →
      items.length ≤ fuel → (∀ i ∈ items, '\"' ∉ i) →
      parseStrItemsNE fuel (sepJoin ((", ").data) (items.map quoteStr) ++ (']' :: rest))
        = some (items, rest) := by
  intro items
  induction items with
  | nil => intro fuel rest hne _ _; exact absurd rfl hne
  | cons i more ih =>
    intro fuel rest _ hfuel hq
    obtain ⟨f, rfl⟩ : ∃ f, fuel = f + 1 :=
      ⟨fuel - 1, by simp only [List.length_cons] at hfuel; omega⟩
    have hqi : '\"' ∉ i := hq i (List.mem_cons_self i more)
    match more with
    | [] =>
      have hin : sepJoin ((", ").data) (([i] : List CStr).map quoteStr) ++ (']' :: rest)
          = quoteStr i ++ (']' :: rest) := by simp [sepJoin_single]
      rw [hin]
      simp only [parseStrItemsNE]
      rw [skipWs_quoteStr, parseStringLit_quoteStr _ _ hqi]
      simp only [Option.some_bind]
      rw [skipWs_rbrack]
      simp
    | j :: js =>
      have hin : sepJoin ((", ").data) ((i :: j :: js).map quoteStr) ++ (']' :: rest)
          = quoteStr i ++ (',' :: ' ' ::
            (sepJoin ((", ").data) ((j :: js).map quoteStr) ++ (']' :: rest))) := by
        simp [sepJoin_cons₂, List.append_assoc]
      rw [hin]
      simp only [parseStrItemsNE]
      rw [skipWs_quoteStr, parseStringLit_quoteStr _ _ hqi]
      simp only [Option.some_bind]
      rw [skipWs_comma]
      have hrec : parseStrItemsNE f (' ' ::
          (sepJoin ((", ").data) ((j :: js).map quoteStr) ++ (']' :: rest)))
          = some (j :: js, rest) := by
        rw [parseStrItemsNE_ws f ' ' _ (by decide)]
        exact ih f rest (by simp)
          (by simp only [List.length_cons] at hfuel ⊢; omega)
          (fun x hx => hq x (List.mem_cons_of_mem i hx))
      show (parseStrItemsNE f (' ' ::
          (sepJoin ((", ").data) ((j :: js).map quoteStr) ++ (']' :: rest)))).bind
          (fun a => some (i :: a.1, a.2)) = some (i :: j :: js, rest)
      rw [hrec]
      rfl

theorem parseStrItems_render (items : List CStr) (fuel : Nat) (rest : CStr)
    (hne : items ≠ []) (hfuel : items.length ≤ fuel) (hq : ∀ i ∈ items, '\"' ∉ i) :
    parseStrItems fuel (sepJoin ((", ").data) (items.map quoteStr) ++ (']' :: rest))
      = some (items, rest) := by
  match items, hne with
  | [], h => exact absurd rfl h
  | i :: more, _ =>
    obtain ⟨r, hr⟩ := sepJoin_quote_head i more ((", ").data) (']' :: rest)
    have hx : skipWs (sepJoin ((", ").data) ((i :: more).map quoteStr) ++ (']' :: rest))
        = '\"' :: r := by rw [hr]; exact skipWs_quote r
    rw [parseStrItems_of_head fuel _ _ _ hx (by decide)]
    exact parseStrItemsNE_render (i :: more) fuel rest (by simp) hfuel hq

/-- The fields of a row that make its rendered line parse back: no quote
character inside any string field and a full 8-slot id array. -/
def rowParseOK (r : Row) : Prop :=
  '\"' ∉ r.url ∧ '\"' ∉ r.title ∧ '\"' ∉ r.comment ∧ '\"' ∉ r.last_updated ∧
    r.tag_ids.length = ROW_TAG_C

/-- The parse-tree entry a rendered row line denotes. -/
def rowToEntry (r : Row) : CStr × JRowT :=
  (natRepr r.id, ⟨r.url, r.title, r.comment, r.last_updated, r.tag_ids.map natRepr⟩)

theorem rowEntryFull_append (r : Row) (tail : CStr) :
    rowEntryFull r ++ tail =
      '\t' :: '\t' :: (quoteStr (natRepr r.id) ++ (':' :: ' ' :: '[' ::
        (quoteStr r.url ++ (',' :: ' ' :: (quoteStr r.title ++ (',' :: ' ' ::
          (quoteStr r.comment ++ (',' :: ' ' :: (quoteStr r.last_updated ++
            (',' :: ' ' :: '[' ::
              (tagIdsStr r.tag_ids ++ (']' :: ']' :: tail)))))))))))) := by
  simp [rowEntryFull, rowEntryStr, List.append_assoc]

theorem parseRowValue_render (r : Row) (tail : CStr) (hok : rowParseOK r) :
    parseRowValue (' ' :: '[' ::
        (quoteStr r.url ++ (',' :: ' ' :: (quoteStr r.title ++ (',' :: ' ' ::
          (quoteStr r.comment ++ (',' :: ' ' :: (quoteStr r.last_updated ++
            (',' :: ' ' :: '[' ::
              (tagIdsStr r.tag_ids ++ (']' :: ']' :: tail)))))))))))
      = some (⟨r.url, r.title, r.comment, r.last_updated, r.tag_ids.map natRepr⟩,
          tail) := by
  obtain ⟨hu, ht, hc, hd, hlen⟩ := hok
  have hq : ∀ i ∈ r.tag_ids.map natRepr, '\"' ∉ i := by
    intro i hi
    obtain ⟨n, _, rfl⟩ := List.mem_map.mp hi
    exact quote_not_mem_natRepr n
  have hne : r.tag_ids.map natRepr ≠ [] := by
    intro hcon
    have := congrArg List.length hcon
    simp [hlen, ROW_TAG_C] at this
  have hmaps : (r.tag_ids.map natRepr).map quoteStr
      = r.tag_ids.map (fun n => quoteStr (natRepr n)) := by
    rw [List.map_map]
    rfl
  have hfuel : (r.tag_ids.map natRepr).length ≤
      (sepJoin ((", ").data) ((r.tag_ids.map natRepr).map quoteStr)
        ++ (']' :: ']' :: tail)).length := by
    have h1 : ∀ x ∈ (r.tag_ids.map natRepr).map quoteStr, 1 ≤ x.length := by
      intro x hx
      obtain ⟨y, _, rfl⟩ := List.mem_map.mp hx
      simp [quoteStr]
    have h2 := sepJoin_length_ge ((", ").data)
      ((r.tag_ids.map natRepr).map quoteStr) h1
    simp only [List.length_map, List.length_append] at h2 ⊢
    omega
  unfold parseRowValue
  rw [expectChar_sp, expectChar_lbrack]
  simp only [Option.some_bind]
  rw [skipWs_quoteStr, parseStringLit_quoteStr _ _ hu]
  simp only [Option.some_bind]
  rw [expectChar_comma]
  simp only [Option.some_bind]
  rw [skipWs_sp, skipWs_quoteStr, parseStringLit_quoteStr _ _ ht]
  simp only [Option.some_bind]
  rw [expectChar_comma]
  simp only [Option.some_bind]
  rw [skipWs_sp, skipWs_quoteStr, parseStringLit_quoteStr _ _ hc]
  simp only [Option.some_bind]
  rw [expectChar_comma]
  simp only [Option.some_bind]
  rw [skipWs_sp, skipWs_quoteStr, parseStringLit_quoteStr _ _ hd]
  simp only [Option.some_bind]
  rw [expectChar_comma]
  simp only [Option.some_bind]
  rw [expectChar_sp, expectChar_lbrack]
  simp only [Option.some_bind]
  rw [tagIdsStr_eq_sepJoin r.tag_ids hlen, ← hmaps]
  rw [parseStrItems_render (r.tag_ids.map natRepr) _ (']' :: tail) hne
    (by simpa using Nat.le_succ_of_le hfuel) hq]
  simp only [Option.some_bind]
  rw [expectChar_rbrack]
  simp only [Option.some_bind]

theorem parseRowMember_ws (ch : Char) (X : CStr) (h : isWsChar ch = true) :
    parseRowMember (ch :: X) = parseRowMember X := by
  unfold parseRowMember
  rw [skipWs_ws ch X h]

theorem parseRowMember_entry (r : Row) (tail : CStr) (hok : rowParseOK r) :
    parseRowMember (rowEntryFull r ++ tail) = some (rowToEntry r, tail) := by
  rw [rowEntryFull_append]
  unfold parseRowMember
  rw [skipWs_tab, skipWs_tab, skipWs_quoteStr,
    parseStringLit_quoteStr _ _ (quote_not_mem_natRepr r.id)]
  simp only [Option.some_bind]
  rw [expectChar_colon]
  simp only [Option.some_bind]
  rw [parseRowValue_render r tail hok]
  simp only [Option.some_bind]
  rfl

theorem parseRowMembersNE_ws (fuel : Nat) (ch : Char) (X : CStr)
    (h : isWsChar ch = true) :
    parseRowMembersNE fuel (ch :: X) = parseRowMembersNE fuel X := by
  cases fuel with
  | zero => rfl
  | succ f => simp only [parseRowMembersNE, parseRowMember_ws ch X h]

theorem parseRowMembers_of_head (fuel : Nat) (s : CStr) (x : Char) (r : CStr)
    (hx : skipWs s = x :: r) (hne : x ≠ '\x7d') :
    parseRowMembers fuel s = parseRowMembersNE fuel s := by
  simp only [parseRowMembers, hx]
  simp [hne]

theorem parseRowMembers_close (fuel : Nat) (s : CStr) (r : CStr)
    (hx : skipWs s = '\x7d' :: r) :
    parseRowMembers fuel s = some ([], r) := by
  simp only [parseRowMembers, hx]
  simp

theorem skipWs_rowEntry (r : Row) (X : CStr) :
    ∃ z, skipWs (rowEntryFull r ++ X) = '\"' :: z := by
  rw [rowEntryFull_append, skipWs_tab, skipWs_tab, skipWs_quoteStr, quoteStr_append]
  exact ⟨_, rfl⟩

theorem parseRowMembersNE_glue :
    ∀ (rs : List Row) (fuel : Nat) (rest : CStr), rs ≠ [] →
      rs.length ≤ fuel → (∀ r ∈ rs, rowParseOK r) →
      parseRowMembersNE fuel
        (glue ((",\n").data) (rs.map rowEntryFull) ++ ('\t' :: '\x7d' :: rest))
        = some (rs.map rowToEntry, rest) := by
  intro rs
  induction rs with
  | nil => intro fuel rest hne _ _; exact absurd rfl hne
  | cons r rs' ih =>
    intro fuel rest _ hfuel hq
    obtain ⟨f, rfl⟩ : ∃ f, fuel = f + 1 :=
      ⟨fuel - 1, by simp only [List.length_cons] at hfuel; omega⟩
    have hqr : rowParseOK r := hq r (List.mem_cons_self r rs')
    match rs' with
    | [] =>
      have hin : glue ((",\n").data) ((r :: ([] : List Row)).map rowEntryFull)
            ++ ('\t' :: '\x7d' :: rest)
          = rowEntryFull r ++ ('\n' :: '\t' :: '\x7d' :: rest) := by
        simp [glue_single, List.append_assoc]
      rw [hin]
      simp only [parseRowMembersNE]
      rw [parseRowMember_entry r _ hqr]
      simp only [Option.some_bind]
      rw [skipWs_nl, skipWs_tab, skipWs_rbrace]
      simp
    | u :: us =>
      have hin : glue ((",\n").data) ((r :: u :: us).map rowEntryFull)
            ++ ('\t' :: '\x7d' :: rest)
          = rowEntryFull r ++ (',' :: '\n' ::
              (glue ((",\n").data) ((u :: us).map rowEntryFull)
                ++ ('\t' :: '\x7d' :: rest))) := by
        simp [glue_cons₂, List.append_assoc]
      rw [hin]
      simp only [parseRowMembersNE]
      rw [parseRowMember_entry r _ hqr]
      simp only [Option.some_bind]
      rw [skipWs_comma]
      have hrec : parseRowMembersNE f ('\n' ::
          (glue ((",\n").data) ((u :: us).map rowEntryFull) ++ ('\t' :: '\x7d' :: rest)))
          = some ((u :: us).map rowToEntry, rest) := by
        rw [parseRowMembersNE_ws f '\n' _ (by decide)]
        exact ih f rest (by simp)
          (by simp only [List.length_cons] at hfuel ⊢; omega)
          (fun x hx => hq x (List.mem_cons_of_mem r hx))
      show (parseRowMembersNE f ('\n' ::
          (glue ((",\n").data) ((u :: us).map rowEntryFull)
            ++ ('\t' :: '\x7d' :: rest)))).bind
          (fun a => some (rowToEntry r :: a.1, a.2))
        = some ((r :: u :: us).map rowToEntry, rest)
      rw [hrec]
      simp

theorem parseRowMembers_glue (rs : List Row) (fuel : Nat) (rest : CStr)
    (hfuel : rs.length ≤ fuel) (hq : ∀ r ∈ rs, rowParseOK r) :
    parseRowMembers fuel
      (glue ((",\n").data) (rs.map rowEntryFull) ++ ('\t' :: '\x7d' :: rest))
      = some (rs.map rowToEntry, rest) := by
  match rs with
  | [] =>
    have hx : skipWs (glue ((",\n").data) (([] : List Row).map rowEntryFull)
        ++ ('\t' :: '\x7d' :: rest)) = '\x7d' :: rest := by
      simp [glue_nil, skipWs_tab, skipWs_rbrace]
    rw [parseRowMembers_close fuel _ rest hx]
    simp
  | r :: rs' =>
    have hsplit : ∃ X, glue ((",\n").data) ((r :: rs').map rowEntryFull)
        ++ ('\t' :: '\x7d' :: rest) = rowEntryFull r ++ X := by
      match rs' with
      | [] =>
        exact ⟨'\n' :: '\t' :: '\x7d' :: rest, by simp [glue_single, List.append_assoc]⟩
      | u :: us =>
        exact ⟨',' :: '\n' :: (glue ((",\n").data) ((u :: us).map rowEntryFull)
          ++ ('\t' :: '\x7d' :: rest)), by simp [glue_cons₂, List.append_assoc]⟩
    obtain ⟨X, hX⟩ := hsplit
    obtain ⟨z, hz⟩ := skipWs_rowEntry r X
    have hx : skipWs (glue ((",\n").data) ((r :: rs').map rowEntryFull)
        ++ ('\t' :: '\x7d' :: rest)) = '\"' :: z := by rw [hX]; exact hz
    rw [parseRowMembers_of_head fuel _ _ _ hx (by decide)]
    exact parseRowMembersNE_glue (r :: rs') fuel rest (by simp) hfuel hq

theorem skipWs_nil : skipWs [] = [] := rfl

theorem parseTagMembers_ws (fuel : Nat) (ch : Char) (X : CStr)
    (h : isWsChar ch = true) :
    parseTagMembers fuel (ch :: X) = parseTagMembers fuel X := by
  simp only [parseTagMembers, skipWs_ws ch X h, parseTagMembersNE_ws fuel ch X h]

theorem parseRowMembers_ws (fuel : Nat) (ch : Char) (X : CStr)
    (h : isWsChar ch = true) :
    parseRowMembers fuel (ch :: X) = parseRowMembers fuel X := by
  simp only [parseRowMembers, skipWs_ws ch X h, parseRowMembersNE_ws fuel ch X h]

theorem one_le_tagEntryStr_length (t : Tag) : 1 ≤ (tagEntryStr t).length := by
  simp [tagEntryStr, quoteStr]

theorem one_le_rowEntryFull_length (r : Row) : 1 ≤ (rowEntryFull r).length := by
  simp [rowEntryFull, rowEntryStr, quoteStr]

theorem glue_length_ge {α : Type} (sep : CStr) (f : α → CStr)
    (h : ∀ x, 1 ≤ (f x).length) :
    ∀ l : List α, l.length ≤ (glue sep (l.map f)).length := by
  intro l
  induction l with
  | nil => simp
  | cons x xs ih =>
    match xs with
    | [] =>
      rw [List.map_cons, List.map_nil, glue_single]
      have hone : ((("\n")).data).length = 1 := rfl
      have := h x
      simp only [List.length_cons, List.length_nil, List.length_append]
      omega
    | y :: ys =>
      simp only [List.map_cons] at ih ⊢
      rw [glue_cons₂]
      simp only [List.length_cons, List.length_append] at ih ⊢
      have := h x
      omega

theorem parseStringLit_tags (X : CStr) :
    parseStringLit ('\"' :: 't' :: 'a' :: 'g' :: 's' :: '\"' :: X)
      = some ('t' :: 'a' :: 'g' :: 's' :: [], X) := by
  have := parseStringLit_quoteStr ('t' :: 'a' :: 'g' :: 's' :: []) X (by decide)
  simpa [quoteStr] using this

theorem parseStringLit_rows (X : CStr) :
    parseStringLit ('\"' :: 'r' :: 'o' :: 'w' :: 's' :: '\"' :: X)
      = some ('r' :: 'o' :: 'w' :: 's' :: [], X) := by
  have := parseStringLit_quoteStr ('r' :: 'o' :: 'w' :: 's' :: []) X (by decide)
  simpa [quoteStr] using this

theorem renderFile_expand (ts : List Tag) (rs : List Row) :
    renderFile ts rs = '\x7b' :: '\n' :: '\t' :: '\"' :: 't' :: 'a' :: 'g' :: 's'
        :: '\"' :: ':' :: '\x7b' :: '\n' ::
      (glue ((",\n").data) (ts.map tagEntryStr) ++ ('\t' :: '\x7d' ::
        (',' :: '\n' :: '\t' :: '\"' :: 'r' :: 'o' :: 'w' :: 's' :: '\"' :: ':'
            :: '\x7b' :: '\n' ::
          (glue ((",\n").data) (rs.map rowEntryFull) ++ ('\t' :: '\x7d' ::
            ('\n' :: '\x7d' :: '\n' :: [])))))) := by
  simp [renderFile, hdrTop, hdrRows, hdrEnd, List.append_assoc]

theorem json_parse_renderFile (ts : List Tag) (rs : List Row)
    (hqt : ∀ t ∈ ts, '\"' ∉ t.name) (hqr : ∀ r ∈ rs, rowParseOK r) :
    json_parse_file (renderFile ts rs)
      = some ⟨ts.map (fun t => (natRepr t.id, t.name)), rs.map rowToEntry⟩ := by
  rw [renderFile_expand]
  unfold json_parse_file
  rw [expectChar_lbrace]
  simp only [Option.some_bind]
  rw [skipWs_nl, skipWs_tab, skipWs_quote, parseStringLit_tags]
  simp only [Option.some_bind]
  rw [if_pos trivial]
  rw [expectChar_colon]
  simp only [Option.some_bind]
  rw [expectChar_lbrace]
  simp only [Option.some_bind]
  rw [parseTagMembers_ws _ '\n' _ (by decide)]
  rw [parseTagMembers_glue ts _ _
    (by
      have hg : ts.length ≤ (glue [',', '\n'] (ts.map tagEntryStr)).length :=
        glue_length_ge [',', '\n'] tagEntryStr one_le_tagEntryStr_length ts
      simp only [List.length_cons, List.length_append]
      omega)
    hqt]
  simp only [Option.some_bind]
  rw [expectChar_comma]
  simp only [Option.some_bind]
  rw [skipWs_nl, skipWs_tab, skipWs_quote, parseStringLit_rows]
  simp only [Option.some_bind]
  rw [if_pos trivial]
  rw [expectChar_colon]
  simp only [Option.some_bind]
  rw [expectChar_lbrace]
  simp only [Option.some_bind]
  rw [parseRowMembers_ws _ '\n' _ (by decide)]
  rw [parseRowMembers_glue rs _ _
    (by
      have hg : rs.length ≤ (glue [',', '\n'] (rs.map rowEntryFull)).length :=
        glue_length_ge [',', '\n'] rowEntryFull one_le_rowEntryFull_length rs
      simp only [List.length_cons, List.length_append]
      omega)
    hqr]
  simp only [Option.some_bind]
  rw [expectChar_nl, expectChar_rbrace]
  simp only [Option.some_bind]
  rw [if_pos (by rw [skipWs_nl]; rfl : skipWs ('\n' :: []) = [])]

theorem readTagEntry_roundtrip (t : Tag) (h : t.name.length ≤ TAG_NAME_S - 1) :
    readTagEntry (natRepr t.id, t.name) = t := by
  unfold readTagEntry
  cases t with
  | mk id name =>
    simp only at h ⊢
    simp [atoiNat_natRepr, List.take_of_length_le h]

theorem map_atoiNat_natRepr (l : List Nat) : (l.map natRepr).map atoiNat = l := by
  induction l with
  | nil => rfl
  | cons a t ih => simp [atoiNat_natRepr, ih]

theorem readRowEntry_roundtrip (r : Row)
    (ht : r.title.length ≤ TITLE_S - 1) (hc : r.comment.length ≤ COMMENT_S - 1)
    (hd : r.last_updated.length ≤ 19) (hl : r.tag_ids.length = ROW_TAG_C) :
    readRowEntry (rowToEntry r) = some r := by
  unfold readRowEntry rowToEntry
  have hcond2 : r.tag_ids.map natRepr ≠ [] := by
    intro hcon
    have := congrArg List.length hcon
    simp [hl, ROW_TAG_C] at this
  rw [if_pos ⟨by simpa using Nat.lt_succ_of_le hd, hcond2⟩]
  cases r with
  | mk id url title comment lu tags =>
    simp only at ht hc hd hl ⊢
    rw [map_atoiNat_natRepr]
    simp [atoiNat_natRepr, List.take_of_length_le, ht, hc, hd,
      List.take_left' hl]

theorem readRowEntries_map (rs : List Row)
    (h : ∀ r ∈ rs, r.title.length ≤ TITLE_S - 1 ∧ r.comment.length ≤ COMMENT_S - 1 ∧
      r.last_updated.length ≤ 19 ∧ r.tag_ids.length = ROW_TAG_C) :
    readRowEntries (rs.map rowToEntry) = some rs := by
  induction rs with
  | nil => rfl
  | cons r rest ih =>
    obtain ⟨h1, h2, h3, h4⟩ := h r (List.mem_cons_self r rest)
    rw [List.map_cons]
    simp only [readRowEntries]
    rw [readRowEntry_roundtrip r h1 h2 h3 h4,
      ih (fun x hx => h x (List.mem_cons_of_mem r hx))]

theorem readTags_map (ts : List Tag) (h : ∀ t ∈ ts, t.name.length ≤ TAG_NAME_S - 1) :
    (ts.map (fun t => (natRepr t.id, t.name))).map readTagEntry = ts := by
  induction ts with
  | nil => rfl
  | cons t rest ih =>
    simp only [List.map_cons]
    rw [readTagEntry_roundtrip t (h t (List.mem_cons_self t rest)),
      ih (fun x hx => h x (List.mem_cons_of_mem t hx))]

theorem ReadJSON_entries_render (ts : List Tag) (rs : List Row)
    (hts : ∀ t ∈ ts, t.name.length ≤ TAG_NAME_S - 1)
    (hrs : ∀ r ∈ rs, r.title.length ≤ TITLE_S - 1 ∧ r.comment.length ≤ COMMENT_S - 1 ∧
      r.last_updated.length ≤ 19 ∧ r.tag_ids.length = ROW_TAG_C) :
    ReadJSON_entries ⟨ts.map (fun t => (natRepr t.id, t.name)), rs.map rowToEntry⟩
      = some { table := { rows := rs, count := rs.length, next_UID := maxFold (rs.map (fun r => r.id)) + 1 }, tags := { tags := ts, count := ts.length, next_UID := maxFold (ts.map (fun t => t.id)) + 1 } } := by
  unfold ReadJSON_entries
  dsimp only
  rw [readRowEntries_map rs hrs]
  dsimp only
  rw [readTags_map ts hts]

/-- The stores the encoder serializes losslessly: `count` equal to the
backing-array length, both counters already normalized to the maximum id
plus one, and every entry live, with string fields free of JSON-special
characters (`WriteJSON` never escapes) and within the fixed field bounds
that `ReadJSON` truncates to, and a full 8-slot id array per row. -/
def encOK (c : Core) : Prop :=
  c.table.count = c.table.rows.length ∧
  c.tags.count = c.tags.tags.length ∧
  c.table.next_UID = maxFold (c.table.rows.map (fun r => r.id)) + 1 ∧
  c.tags.next_UID = maxFold (c.tags.tags.map (fun t => t.id)) + 1 ∧
  (∀ t ∈ c.tags.tags, t.id ≠ 0 ∧ '\"' ∉ t.name ∧ '\\' ∉ t.name ∧
    t.name.length ≤ TAG_NAME_S - 1) ∧
  (∀ r ∈ c.table.rows, r.id ≠ 0 ∧
    '\"' ∉ r.url ∧ '\\' ∉ r.url ∧
    '\"' ∉ r.title ∧ '\\' ∉ r.title ∧ r.title.length ≤ TITLE_S - 1 ∧
    '\"' ∉ r.comment ∧ '\\' ∉ r.comment ∧ r.comment.length ≤ COMMENT_S - 1 ∧
    '\"' ∉ r.last_updated ∧ '\\' ∉ r.last_updated ∧ r.last_updated.length ≤ 19 ∧
    r.tag_ids.length = ROW_TAG_C)

instance encOKDecidable (c : Core) : Decidable (encOK c) := by
  unfold encOK
  infer_instance

theorem decode_WriteJSON_str (c : Core) (h : encOK c) :
    WriteJSON_str c = renderFile (liveTags c) (liveRows c) ∧
    decode (WriteJSON_str c) = some c := by
  obtain ⟨hcr, hct, hnr, hnt, htag, hrow⟩ := h
  have htake_t : c.tags.tags.take c.tags.count = c.tags.tags := by
    rw [hct]
    exact List.take_length _
  have htake_r : c.table.rows.take c.table.count = c.table.rows := by
    rw [hcr]
    exact List.take_length _
  have hlivet : liveTags c = c.tags.tags := by
    unfold liveTags
    rw [htake_t]
    exact List.filter_eq_self.mpr (fun x hx => by simp [tagLive, (htag x hx).1])
  have hliver : liveRows c = c.table.rows := by
    unfold liveRows
    rw [htake_r]
    exact List.filter_eq_self.mpr (fun x hx => by simp [rowLive, (hrow x hx).1])
  have henc : WriteJSON_str c = renderFile (liveTags c) (liveRows c) := by
    exact WriteJSON_str_eq_renderFile c (le_of_eq hct) (le_of_eq hcr)
      (fun x hx => by
        have hmem : x ∈ c.tags.tags := by
          obtain ⟨hne, hxeq⟩ := List.mem_getLast?_eq_getLast hx
          exact List.mem_of_mem_take (hxeq ▸ List.getLast_mem hne)
        simp [tagLive, (htag x hmem).1])
      (fun x hx => by
        have hmem : x ∈ c.table.rows := by
          obtain ⟨hne, hxeq⟩ := List.mem_getLast?_eq_getLast hx
          exact List.mem_of_mem_take (hxeq ▸ List.getLast_mem hne)
        simp [rowLive, (hrow x hmem).1])
  refine ⟨henc, ?_⟩
  rw [henc, hlivet, hliver]
  unfold decode
  rw [json_parse_renderFile c.tags.tags c.table.rows
    (fun t ht => ((htag t ht).2).1)
    (fun r hr => by
      obtain ⟨-, hqu, -, hqt2, -, -, hqc, -, -, hqd, -, -, hlen⟩ := hrow r hr
      exact ⟨hqu, hqt2, hqc, hqd, hlen⟩)]
  simp only [Option.some_bind]
  rw [ReadJSON_entries_render c.tags.tags c.table.rows
    (fun t ht => (htag t ht).2.2.2)
    (fun r hr => by
      obtain ⟨-, -, -, -, -, hlt, -, -, hlc, -, -, hld, hlen⟩ := hrow r hr
      exact ⟨hlt, hlc, hld, hlen⟩)]
  cases c with
  | mk table tags =>
    cases table with
    | mk rows count nuid =>
      cases tags with
      | mk tgs tcount tnuid =>
        simp only at hcr hct hnr hnt ⊢
        simp [hcr, hct, hnr, hnt]


/-- A fixed `GetCurrentDateTime` string used in concrete scenarios. -/
def nowEx : CStr := ("2024-01-02 03:04:05").data

/-- Concrete row with id 1 carrying exactly tag 1. -/
def rowEx1 : Row :=
  { id := 1, url := ("u1").data, title := ("Alpha").data, comment := [],
    last_updated := ("2023-05-06 07:08:09").data,
    tag_ids := [1, 0, 0, 0, 0, 0, 0, 0] }

/-- Concrete row with id 2 carrying exactly tag 2. -/
def rowEx2 : Row :=
  { id := 2, url := ("u2").data, title := ("Beta").data, comment := [],
    last_updated := ("2023-05-06 07:08:10").data,
    tag_ids := [2, 0, 0, 0, 0, 0, 0, 0] }

/-- Concrete tag 1. -/
def tagT1 : Tag := { id := 1, name := ("one").data }

/-- Concrete tag 2. -/
def tagT2 : Tag := { id := 2, name := ("two").data }

/-- Concrete untagged row with id 1. -/
def rowPlain1 : Row :=
  { id := 1, url := ("u1").data, title := ("A").data, comment := [],
    last_updated := ("2023-01-01 00:00:00").data,
    tag_ids := [0, 0, 0, 0, 0, 0, 0, 0] }

/-- Concrete untagged row with id 2. -/
def rowPlain2 : Row :=
  { id := 2, url := ("u2").data, title := ("B").data, comment := [],
    last_updated := ("2023-01-01 00:00:01").data,
    tag_ids := [0, 0, 0, 0, 0, 0, 0, 0] }

/-- Two-row tagless store, as loaded from a save file. -/
def storeC1 : Core :=
  { table := { rows := [rowPlain1, rowPlain2], count := 2, next_UID := 3 },
    tags := { tags := [], count := 0, next_UID := 1 } }

/-- The store `remove 1` (confirmed) produces from `storeC1`: row 1 is
tombstoned in place and `count` is decremented to 1 although the backing
array still holds two entries, the second of them live. -/
def storeC1removed : Core :=
  { table := { rows := [{ rowPlain1 with id := 0 }, rowPlain2], count := 1, next_UID := 3 },
    tags := { tags := [], count := 0, next_UID := 1 } }

/-- A store with no rows at all (same counters as `storeC1removed`). -/
def storeEmptyC1 : Core :=
  { table := { rows := [], count := 0, next_UID := 3 },
    tags := { tags := [], count := 0, next_UID := 1 } }

/-- C1: the claim states that `RemoveRow(store, 1, confirmed)` tombstones only
row 1 and that every other live row is still emitted by the subsequent
encode, the live-entry count being tracked separately from the array length.
On the code this fails: `remove 1` on a two-row store tombstones row 1 but
also decrements `count`, which doubles as `WriteJSON`'s loop bound, so the
still-live row 2 (present in the backing array) is not visited and the saved
bytes are identical to those of a store with no rows at all — row 2 is
silently dropped from the save. -/
theorem C1_remove_skips_surviving_row :
    processRemove storeC1 (("1").data) 'y' = PRes.ok storeC1removed ∧
    (storeC1removed.table.rows.getD 1 defaultRow).id = 2 ∧
    storeC1removed.table.count = 1 ∧
    WriteJSON_str storeC1removed = WriteJSON_str storeEmptyC1 := by
  decide

/-- Store for the tag-filter scenario: row A (index 0) has tags `{1}`, row B
(index 1) has tags `{2}`; both tags live. -/
def storeC4 : Core :=
  { table := { rows := [rowEx1, rowEx2], count := 2, next_UID := 3 },
    tags := { tags := [tagT1, tagT2], count := 2, next_UID := 3 } }

/-- C4: the claim states `ListByTags` uses OR semantics, so querying
`[1, 2]` on a store where row A carries tag 1 and row B carries tag 2 must
return both rows.  On the code this fails: the strtok loop of the multi-tag
`list` branch never increments its slot index, so every token overwrites
`tmp[0]`, and the loop passes the number of spaces (1) as the tag count; the
query therefore only filters by the last token (tag 2) and prints row B
alone (printed indices `[1]`, not `[0, 1]`). -/
theorem C4_list_or_semantics_fails :
    RowHasTagId rowEx1 1 = true ∧ RowHasTagId rowEx2 2 = true ∧
    processListTags storeC4 (("1 2").data) = PRes.ok [1] := by
  decide

/-- C9: the claim states that over-long titles/comments are truncated with an
ellipsis marker.  On the code the truncation happens (to `m - 1` bytes) but
the ellipsis branch of `strcpyt` is dead: its guard `l >= m` is evaluated
after `l` has already been clamped to `m - 1`, so it never fires.  A 70-char
source stored into the 64-byte title field yields the first 63 characters
with no marker; in-bound sources are stored verbatim. -/
theorem C9_truncation_has_no_ellipsis :
    strcpyt (List.replicate 70 'a') TITLE_S (-1) = List.replicate 63 'a' ∧
    strcpyt (("short").data) TITLE_S (-1) = ("short").data := by
  decide

/-- C10 counterexample: the claim states a failed save makes the process exit
with non-zero status.  On the code, `main` checks `WriteJSON(&core) < 1` and
prints the save-error message, but then falls through to `return 0`: the exit
status is 0 both when the file cannot be opened and when the write is
partial, even though the failure was reported. -/
theorem C10_save_failure_exit_zero :
    main_tail false true = (0, true) ∧ main_tail true false = (0, true) := by
  decide

/-- C10 amended: a failed save (cannot open, or partial write) is reported as
a save error, but the process exit status is 0 regardless of whether the save
succeeded — zero exit does not imply the save went through. -/
theorem C10_exit_status_amended :
    ∀ canOpen fullWrite : Bool,
      (main_tail canOpen fullWrite).1 = 0 ∧
      ((main_tail canOpen fullWrite).2 = true ↔
        WriteJSON_ret canOpen fullWrite = -1) := by
  decide

/-- One-row one-tag store used in several scenarios (row 1 carries tag 1). -/
def storeC5 : Core :=
  { table := { rows := [rowEx1], count := 1, next_UID := 2 },
    tags := { tags := [tagT1], count := 1, next_UID := 2 } }

/-- C5 counterexample: the claim states every declined confirmation is a
clean abort with success status.  On the code, declining the `tag remove`
confirmation calls `exit(-1)`: the store is untouched, but the exit status is
non-zero. -/
theorem C5_tag_remove_decline_nonzero_exit :
    processTagRemove storeC5 (("1").data) 'n' nowEx =
      PRes.exited (-1) (("")) storeC5 ∧ ((-1 : Int) ≠ 0) := by
  decide

/-- Store with a single tag named "work" (id 7). -/
def storeC6 : Core :=
  { table := { rows := [], count := 0, next_UID := 1 },
    tags := { tags := [{ id := 7, name := ("work").data }], count := 1, next_UID := 8 } }

/-- What `tag rename zzz new` actually produces from `storeC6`: the
unrelated tag "work" is renamed. -/
def storeC6renamed : Core :=
  { table := { rows := [], count := 0, next_UID := 1 },
    tags := { tags := [{ id := 7, name := ("new").data }], count := 1, next_UID := 8 } }

/-- C6 counterexample: the claim states an unresolvable tag reference fails
with TagNotFound rather than acting on some other tag.  On the code,
`GetInputTagIndex` leaves its result at 0 when nothing matches, so
`tag rename zzz new` on a store whose only tag is "work" (id 7) renames that
unrelated tag instead of failing. -/
theorem C6_unresolved_token_hits_first_tag :
    GetInputTagIndex storeC6 (("zzz").data) = 0 ∧
    processTagRename storeC6 (("zzz").data) (("new").data) =
      PRes.ok storeC6renamed := by
  decide

/-- Empty store (fresh config file). -/
def storeEmpty : Core :=
  { table := { rows := [], count := 0, next_UID := 1 },
    tags := { tags := [], count := 0, next_UID := 1 } }

/-- The row produced by `add u -t T -tg 99` on an empty store. -/
def rowC2bad : Row :=
  { id := 1, url := ("u").data, title := ("T").data, comment := [],
    last_updated := nowEx, tag_ids := [99, 0, 0, 0, 0, 0, 0, 0] }

/-- The store produced by `add u -t T -tg 99` on an empty store: the numeric
token 99 is written into slot 0 without any validation although no tag with
id 99 exists. -/
def storeC2bad : Core :=
  { table := { rows := [rowC2bad], count := 1, next_UID := 2 },
    tags := { tags := [], count := 0, next_UID := 1 } }

instance refIntegrityDecidable (c : Core) : Decidable (refIntegrity c) := by
  unfold refIntegrity
  infer_instance

/-- C2 counterexample: the claim states referential integrity is preserved by
every mutation operation, `AddRow` included.  On the code, the `IM_ADD` tag
parsing stores any numeric token via `atoi` without checking that a live tag
with that id exists: `add u -t T -tg 99` on an empty store creates a row
whose slot 0 references the nonexistent tag 99. -/
theorem C2_add_stores_dangling_tag :
    processAdd storeEmpty (("u").data) (some (("T").data)) none
        (some (("99").data)) [] nowEx = PRes.ok storeC2bad ∧
    ¬ refIntegrity storeC2bad := by
  decide

theorem scanSlots_nil (t i : Nat) : scanSlots [] t i none = SlotScan.full := rfl

theorem scanSlots_nil_some (t i k : Nat) :
    scanSlots [] t i (some k) = SlotScan.freeAt k := rfl

theorem scanSlots_cons (s : Nat) (rest : List Nat) (t i : Nat) (free : Option Nat) :
    scanSlots (s :: rest) t i free =
      if s = 0 ∧ free = none then scanSlots rest t (i + 1) (some i)
      else if s = t then SlotScan.dupAt i
      else scanSlots rest t (i + 1) free := rfl

/-- A row whose slots are all occupied by ids other than the sought tag scans
as full. -/
theorem scanSlots_full_of (t : Nat) :
    ∀ (l : List Nat) (i : Nat), (∀ s ∈ l, s ≠ 0) → t ∉ l →
      scanSlots l t i none = SlotScan.full := by
  intro l
  induction l with
  | nil => intro i _ _; rfl
  | cons s rest ih =>
    intro i hz ht
    rw [scanSlots_cons,
      if_neg (fun hand => hz s (List.mem_cons_self s rest) hand.1),
      if_neg (fun hst => ht (List.mem_cons.mpr (Or.inl hst.symm)))]
    exact ih (i + 1) (fun x hx => hz x (List.mem_cons_of_mem s hx))
      (fun hx => ht (List.mem_cons_of_mem s hx))

/-- A present non-zero tag is detected at its first occurrence, whatever free
slot has been remembered. -/
theorem scanSlots_dup_of (t : Nat) (ht : t ≠ 0) :
    ∀ (l : List Nat) (i : Nat) (free : Option Nat), t ∈ l →
      scanSlots l t i free = SlotScan.dupAt (i + l.findIdx (fun s => s == t)) := by
  intro l
  induction l with
  | nil => intro i free h; exact absurd h (List.not_mem_nil t)
  | cons s rest ih =>
    intro i free hmem
    rw [scanSlots_cons, List.findIdx_cons]
    by_cases hst : s = t
    · have hb : (s == t) = true := by simp [hst]
      rw [hb, if_neg (fun hand => ht (hst ▸ hand.1)), if_pos hst]
      simp
    · have hb : (s == t) = false := by simp [hst]
      have hmem' : t ∈ rest := by
        rcases List.mem_cons.mp hmem with h | h
        · exact absurd h.symm hst
        · exact h
      rw [hb]
      by_cases hz : s = 0 ∧ free = none
      · rw [if_pos hz, ih (i + 1) (some i) hmem']
        congr 1
        simp only [cond_false]
        omega
      · rw [if_neg hz, if_neg hst, ih (i + 1) free hmem']
        congr 1
        simp only [cond_false]
        omega

/-- Once a free slot has been remembered, scanning slots free of the tag
keeps it. -/
theorem scanSlots_free_some (t : Nat) :
    ∀ (l : List Nat) (i k : Nat), t ∉ l →
      scanSlots l t i (some k) = SlotScan.freeAt k := by
  intro l
  induction l with
  | nil => intro i k _; rfl
  | cons s rest ih =>
    intro i k ht
    rw [scanSlots_cons,
      if_neg (fun hand => absurd hand.2 (Option.some_ne_none k)),
      if_neg (fun hst => ht (List.mem_cons.mpr (Or.inl hst.symm)))]
    exact ih (i + 1) k (fun hx => ht (List.mem_cons_of_mem s hx))

/-- When the tag is absent and a zero slot exists, the scan yields the first
zero slot. -/
theorem scanSlots_free_none (t : Nat) :
    ∀ (l : List Nat) (i : Nat), t ∉ l → (0 : Nat) ∈ l →
      scanSlots l t i none = SlotScan.freeAt (i + l.findIdx (fun s => s == 0)) := by
  intro l
  induction l with
  | nil => intro i _ h0; exact absurd h0 (List.not_mem_nil 0)
  | cons s rest ih =>
    intro i ht h0
    rw [scanSlots_cons, List.findIdx_cons]
    by_cases hs : s = 0
    · rw [if_pos ⟨hs, rfl⟩,
        scanSlots_free_some t rest (i + 1) i (fun hx => ht (List.mem_cons_of_mem s hx))]
      have hb : (s == 0) = true := by simp [hs]
      rw [hb]
      simp
    · have hb : (s == 0) = false := by simp [hs]
      have h0' : (0 : Nat) ∈ rest := by
        rcases List.mem_cons.mp h0 with h | h
        · exact absurd h.symm hs
        · exact h
      rw [hb, if_neg (fun hand => hs hand.1),
        if_neg (fun hst => ht (List.mem_cons.mpr (Or.inl hst.symm))),
        ih (i + 1) (fun hx => ht (List.mem_cons_of_mem s hx)) h0']
      congr 1
      simp only [cond_false]
      omega

/-- C8: adding a tag to a row whose 8 tag slots are all occupied by distinct
tag ids different from the one being added fails with the capacity error
("Cannot add anymore tags to this url entry.") and leaves the store — hence
the row's slots, title, comment and timestamp — unchanged, on both assignment
paths: the direct `tag <url-id> <ref>` command exits with status -1 and the
`update -tg` path exits with status 0, in both cases before any mutation. -/
theorem C8_capacity_error_row_unchanged (c : Core) (idTok tagTok : CStr)
    (now : CStr) (urlIndex : Nat)
    (h1 : headDigit idTok = true)
    (h2 : headDigit tagTok = true)
    (h3 : (c.table.rows.take c.table.count).findIdx?
        (fun r => r.id == atoiNat idTok) = some urlIndex)
    (hfull : ∀ s ∈ (c.table.rows.getD urlIndex defaultRow).tag_ids, s ≠ 0)
    (hneA : (c.tags.tags.getD (GetInputTagIndex c tagTok) defaultTag).id ∉
        (c.table.rows.getD urlIndex defaultRow).tag_ids)
    (hneU : atoiNat tagTok ∉ (c.table.rows.getD urlIndex defaultRow).tag_ids) :
    processTagAddToEntry c idTok tagTok now = PRes.exited (-1) msgCapacity c ∧
    updateRowTags c urlIndex tagTok 'y' = PRes.exited 0 msgCapacity c := by
  constructor
  · unfold processTagAddToEntry
    rw [if_neg (by simp [h1]), if_neg (by simp [h2]), h3]
    simp only [scanSlots_full_of _ _ 0 hfull hneA]
  · unfold updateRowTags
    rw [if_pos (by simp [h2])]
    simp only [scanSlots_full_of _ _ 0 hfull hneU]

/-- Row with all 8 slots occupied by distinct tags 1..8. -/
def rowFull : Row :=
  { id := 1, url := ("u").data, title := ("F").data, comment := [],
    last_updated := nowEx, tag_ids := [1, 2, 3, 4, 5, 6, 7, 8] }

/-- Store with the full row and a live ninth tag to be added. -/
def storeC8 : Core :=
  { table := { rows := [rowFull], count := 1, next_UID := 2 },
    tags := { tags := [{ id := 9, name := ("nine").data }], count := 1, next_UID := 10 } }

theorem C8_capacity_witness :
    headDigit (("1").data) = true ∧
    processTagAddToEntry storeC8 (("1").data) (("9").data) nowEx =
      PRes.exited (-1) msgCapacity storeC8 ∧
    updateRowTags storeC8 0 (("9").data) 'y' =
      PRes.exited 0 msgCapacity storeC8 := by
  have h := C8_capacity_error_row_unchanged storeC8 (("1").data) (("9").data)
    nowEx 0 (by decide) (by decide) (by decide) (by decide) (by decide) (by decide)
  exact ⟨by decide, h.1, h.2⟩

/-- C5 amended: a declined confirmation always aborts the command before any
mutation (the in-memory store reaches the exit unchanged and the file is
never rewritten), but the exit status is not uniformly zero: declining row
removal or a tag toggle-off exits with status 0 (clean abort), while
declining tag removal exits with status -1. -/
theorem C5_decline_is_unmutated_abort (c : Core) (conf : Char)
    (hc : conf ≠ 'y' ∧ conf ≠ 'Y') :
    (∀ idTok i, headDigit idTok = true →
      (c.table.rows.take c.table.count).findIdx?
          (fun r => r.id == atoiNat idTok) = some i →
      processRemove c idTok conf = PRes.exited 0 (("")) c) ∧
    (∀ tok now, headDigit tok = true →
      processTagRemove c tok conf now = PRes.exited (-1) (("")) c) ∧
    (∀ rowIndex tagTok k, headDigit tagTok = true →
      scanSlots (c.table.rows.getD rowIndex defaultRow).tag_ids
          (atoiNat tagTok) 0 none = SlotScan.dupAt k →
      updateRowTags c rowIndex tagTok conf = PRes.exited 0 (("")) c) := by
  have hcc : ¬ (conf = 'y' ∨ conf = 'Y') := fun h => h.elim hc.1 hc.2
  refine ⟨?_, ?_, ?_⟩
  · intro idTok i hd hfind
    unfold processRemove
    rw [if_neg (by simp [hd]), hfind]
    simp only [if_neg hcc]
  · intro tok now hd
    unfold processTagRemove
    rw [if_pos (by simp [hd])]
    simp only [if_neg hcc]
  · intro rowIndex tagTok k hd hscan
    unfold updateRowTags
    rw [if_pos (by simp [hd])]
    simp only [hscan, if_neg hcc]

theorem C5_decline_witness :
    (('n' ≠ 'y') ∧ ('n' ≠ 'Y')) ∧
    processRemove storeC5 (("1").data) 'n' = PRes.exited 0 (("")) storeC5 ∧
    processTagRemove storeC5 (("1").data) 'n' nowEx =
      PRes.exited (-1) (("")) storeC5 ∧
    updateRowTags storeC5 0 (("1").data) 'n' = PRes.exited 0 (("")) storeC5 := by
  have h := C5_decline_is_unmutated_abort storeC5 'n' (by decide)
  exact ⟨by decide, h.1 (("1").data) 0 (by decide) (by decide),
    h.2.1 (("1").data) nowEx (by decide),
    h.2.2 0 (("1").data) 0 (by decide) (by decide)⟩

theorem getD_of_lt {α : Type} (l : List α) (i : Nat) (d : α) (h : i < l.length) :
    l.getD i d = l.get ⟨i, h⟩ := by
  simp [List.getD_eq_getElem?_getD, List.getElem?_eq_getElem h]

theorem getTagIDAux_eq_zero (s : CStr) :
    ∀ l : List Tag, (∀ tg ∈ l, tg.name ≠ s) → getTagIDAux l s = 0 := by
  intro l
  induction l with
  | nil => intro _; rfl
  | cons tg rest ih =>
    intro h
    unfold getTagIDAux
    rw [if_neg (h tg (List.mem_cons_self tg rest))]
    exact ih (fun x hx => h x (List.mem_cons_of_mem tg hx))

theorem getTagIDAux_first (s : CStr) :
    ∀ (l1 : List Tag) (tg : Tag) (l2 : List Tag), (∀ x ∈ l1, x.name ≠ s) →
      tg.name = s → getTagIDAux (l1 ++ tg :: l2) s = tg.id := by
  intro l1
  induction l1 with
  | nil =>
    intro tg l2 _ hname
    rw [List.nil_append]
    unfold getTagIDAux
    rw [if_pos hname]
  | cons x rest ih =>
    intro tg l2 h hname
    rw [List.cons_append]
    unfold getTagIDAux
    rw [if_neg (h x (List.mem_cons_self x rest))]
    exact ih tg l2 (fun y hy => h y (List.mem_cons_of_mem x hy)) hname

/-- C6 amended: tag-reference resolution as the code implements it.
`GetInputTagIndex` matches a numeric token by id and any other token by
case-insensitive name against all `count` stored tags — tombstoned entries
included — returning the first matching index; when nothing matches it
returns 0, so callers proceed on the first tag slot instead of failing with
TagNotFound.  `GetTagID` (the resolver used by add/list) matches names
byte-for-byte (case-sensitively) among the first 8 array slots only and
returns 0, its not-found marker, whenever none of those 8 slots matches —
even if a tag beyond slot 8 bears the name. -/
theorem C6_resolution_amended (c : Core) (tok : CStr) (s : CStr) :
    ((∀ tg ∈ c.tags.tags.take c.tags.count,
        (if headDigit tok then tg.id == atoiNat tok else striEq tg.name tok) = false) →
      GetInputTagIndex c tok = 0) ∧
    (∀ i h, ((c.tags.tags.take c.tags.count).get ⟨i, h⟩).id = atoiNat tok →
      headDigit tok = true →
      (∀ j hj, j < i →
        (((c.tags.tags.take c.tags.count).get ⟨j, hj⟩).id == atoiNat tok) = false) →
      GetInputTagIndex c tok = i) ∧
    (∀ i h, striEq ((c.tags.tags.take c.tags.count).get ⟨i, h⟩).name tok = true →
      headDigit tok = false →
      (∀ j hj, j < i →
        striEq ((c.tags.tags.take c.tags.count).get ⟨j, hj⟩).name tok = false) →
      GetInputTagIndex c tok = i) ∧
    ((∀ tg ∈ c.tags.tags.take ROW_TAG_C, tg.name ≠ s) → GetTagID c.tags s = 0) ∧
    (∀ (l1 : List Tag) (tg : Tag) (l2 : List Tag),
      c.tags.tags.take ROW_TAG_C = l1 ++ tg :: l2 → (∀ x ∈ l1, x.name ≠ s) →
      tg.name = s → GetTagID c.tags s = tg.id) := by
  refine ⟨?_, ?_, ?_, ?_, ?_⟩
  · intro hall
    unfold GetInputTagIndex
    by_cases hd : headDigit tok
    · rw [if_pos hd, List.findIdx?_eq_none_iff.mpr
        (fun tg htg => by have := hall tg htg; rwa [if_pos hd] at this)]
      rfl
    · rw [if_neg hd, List.findIdx?_eq_none_iff.mpr
        (fun tg htg => by have := hall tg htg; rwa [if_neg hd] at this)]
      rfl
  · intro i h hid hd hbefore
    unfold GetInputTagIndex
    rw [if_pos hd]
    rw [List.findIdx?_eq_some_iff_getElem.mpr ?_]
    · rfl
    · rw [List.get_eq_getElem] at hid
      simp only [List.getElem_take] at hid
      refine ⟨h, by simp [hid], ?_⟩
      intro j hji
      have hb := hbefore j (Nat.lt_trans hji h) hji
      rw [List.get_eq_getElem] at hb
      simp only [List.getElem_take] at hb
      simp [hb]
  · intro i h hname hd hbefore
    unfold GetInputTagIndex
    rw [if_neg (by simp [hd])]
    rw [List.findIdx?_eq_some_iff_getElem.mpr ?_]
    · rfl
    · rw [List.get_eq_getElem] at hname
      simp only [List.getElem_take] at hname
      refine ⟨h, by simp [hname], ?_⟩
      intro j hji
      have hb := hbefore j (Nat.lt_trans hji h) hji
      rw [List.get_eq_getElem] at hb
      simp only [List.getElem_take] at hb
      simp [hb]
  · intro hall
    exact getTagIDAux_eq_zero s _ hall
  · intro l1 tg l2 hsplit h1 hname
    unfold GetTagID
    rw [hsplit]
    exact getTagIDAux_first s l1 tg l2 h1 hname

/-- Store whose tag array holds a tombstoned tag "dead" in slot 0 and the
live tag "work" (id 7) in slot 1. -/
def storeC6dead : Core :=
  { table := { rows := [], count := 0, next_UID := 1 },
    tags := { tags := [{ id := 0, name := ("dead").data },
      { id := 7, name := ("work").data }], count := 2, next_UID := 8 } }

theorem C6_resolution_witness :
    GetInputTagIndex storeC6dead (("Dead").data) = 0 ∧
    GetTagID storeC6dead.tags (("Work").data) = 0 := by
  have h := C6_resolution_amended storeC6dead (("Dead").data) (("Work").data)
  exact ⟨h.2.2.1 0 (by decide) (by decide) (by decide)
      (fun j hj hlt => absurd hlt (Nat.not_lt_zero j)),
    h.2.2.2.1 (by decide)⟩

/-- The store with row `rowIndex`'s tag slots replaced — the write-back shape
shared by both branches of `UpdateRowTags`. -/
def setRowTags (c : Core) (rowIndex : Nat) (ids : List Nat) : Core :=
  { c with table := { c.table with
      rows := c.table.rows.set rowIndex
        { c.table.rows.getD rowIndex defaultRow with tag_ids := ids } } }

/-- The store after one confirmed `UpdateRowTags` call (unchanged when the
call exits the process instead). -/
def afterToggle (c : Core) (rowIndex : Nat) (tok : CStr) : Core :=
  match updateRowTags c rowIndex tok 'y' with
  | PRes.ok st => st
  | PRes.exited _ _ _ => c

theorem getD_setRowTags (c : Core) (rowIndex : Nat) (ids : List Nat)
    (h : rowIndex < c.table.rows.length) :
    ((setRowTags c rowIndex ids).table.rows.getD rowIndex defaultRow).tag_ids
      = ids := by
  unfold setRowTags
  simp [List.getD_eq_getElem?_getD, List.getElem?_set_self h]

/-- A confirmed `UpdateRowTags` with a tag already on the row clears the slot
of its first occurrence. -/
theorem updateRowTags_toggle_off (c : Core) (rowIndex : Nat) (tok : CStr)
    (hd : headDigit tok = true) (hT : atoiNat tok ≠ 0)
    (hmem : atoiNat tok ∈ (c.table.rows.getD rowIndex defaultRow).tag_ids) :
    updateRowTags c rowIndex tok 'y' = PRes.ok (setRowTags c rowIndex
      ((c.table.rows.getD rowIndex defaultRow).tag_ids.set
        ((c.table.rows.getD rowIndex defaultRow).tag_ids.findIdx
          (fun s => s == atoiNat tok)) 0)) := by
  unfold updateRowTags
  rw [if_pos (by simp [hd])]
  simp only [scanSlots_dup_of (atoiNat tok) hT _ 0 none hmem]
  simp [setRowTags]

/-- An `UpdateRowTags` with a tag not on a row that has a free slot stores
the id in the first free slot. -/
theorem updateRowTags_add (c : Core) (rowIndex : Nat) (tok : CStr)
    (hd : headDigit tok = true)
    (hnot : atoiNat tok ∉ (c.table.rows.getD rowIndex defaultRow).tag_ids)
    (h0 : (0 : Nat) ∈ (c.table.rows.getD rowIndex defaultRow).tag_ids) :
    updateRowTags c rowIndex tok 'y' = PRes.ok (setRowTags c rowIndex
      ((c.table.rows.getD rowIndex defaultRow).tag_ids.set
        ((c.table.rows.getD rowIndex defaultRow).tag_ids.findIdx
          (fun s => s == 0)) (atoiNat tok))) := by
  unfold updateRowTags
  rw [if_pos (by simp [hd])]
  simp only [scanSlots_free_none (atoiNat tok) _ 0 hnot h0]
  simp [setRowTags]

/-- Restatement of `updateRowTags_toggle_off` through `afterToggle`. -/
theorem afterToggle_of_mem (c : Core) (rowIndex : Nat) (tok : CStr)
    (hd : headDigit tok = true) (hT : atoiNat tok ≠ 0)
    (hmem : atoiNat tok ∈ (c.table.rows.getD rowIndex defaultRow).tag_ids) :
    afterToggle c rowIndex tok = setRowTags c rowIndex
      ((c.table.rows.getD rowIndex defaultRow).tag_ids.set
        ((c.table.rows.getD rowIndex defaultRow).tag_ids.findIdx
          (fun s => s == atoiNat tok)) 0) := by
  unfold afterToggle
  rw [updateRowTags_toggle_off c rowIndex tok hd hT hmem]

/-- Restatement of `updateRowTags_add` through `afterToggle`. -/
theorem afterToggle_of_not_mem (c : Core) (rowIndex : Nat) (tok : CStr)
    (hd : headDigit tok = true)
    (hnot : atoiNat tok ∉ (c.table.rows.getD rowIndex defaultRow).tag_ids)
    (h0 : (0 : Nat) ∈ (c.table.rows.getD rowIndex defaultRow).tag_ids) :
    afterToggle c rowIndex tok = setRowTags c rowIndex
      ((c.table.rows.getD rowIndex defaultRow).tag_ids.set
        ((c.table.rows.getD rowIndex defaultRow).tag_ids.findIdx
          (fun s => s == 0)) (atoiNat tok)) := by
  unfold afterToggle
  rw [updateRowTags_add c rowIndex tok hd hnot h0]

/-- Clearing a slot holding the (unique) occurrence of `T` and then writing
`T` into a slot holding 0 permutes the slot array back to itself. -/
theorem perm_set_set_of (l : List Nat) (T k k' : Nat)
    (hk : k < l.length) (hk' : k' < l.length)
    (hT : T ≠ 0)
    (hlk : l.get ⟨k, hk⟩ = T)
    (hlk' : (l.set k 0).get ⟨k', by simpa using hk'⟩ = 0)
    (hcount : l.count T = 1) :
    ((l.set k 0).set k' T).Perm l := by
  rw [List.perm_iff_count]
  intro a
  rw [List.get_eq_getElem] at hlk hlk'
  rw [List.count_set T a (l.set k 0) k' (by simpa using hk'),
    List.count_set 0 a l k hk, hlk, hlk']
  by_cases haT : a = T
  · subst haT
    have h0a : ¬ ((0 : Nat) = a) := fun h => hT h.symm
    simp only [beq_self_eq_true, if_true, beq_iff_eq, h0a, if_false]
    omega
  · have hTa : ¬ (T = a) := fun h => haT h.symm
    by_cases ha0 : a = 0
    · subst ha0
      simp only [beq_self_eq_true, if_true, beq_iff_eq, hTa, if_false]
      omega
    · have h0a : ¬ ((0 : Nat) = a) := fun h => ha0 h.symm
      simp only [beq_iff_eq, hTa, h0a, if_false]
      omega

/-- C7 amended: toggle semantics hold on the `update -tg` path
(`UpdateRowTags`), and only there: with a numeric token naming a non-zero tag
id present exactly once on the row, a confirmed call clears that slot, a
second confirmed call stores the id back into the first free slot, and the
resulting slot array is a permutation of the original — the row is back to
its original tag set.  (The direct `tag <url-id> <ref>` command instead
aborts without toggling when the tag is already present.) -/
theorem C7_update_double_toggle (c : Core) (rowIndex : Nat) (tok : CStr)
    (hrow : rowIndex < c.table.rows.length)
    (hd : headDigit tok = true)
    (hT : atoiNat tok ≠ 0)
    (hmem : atoiNat tok ∈ (c.table.rows.getD rowIndex defaultRow).tag_ids)
    (hnodup : ((c.table.rows.getD rowIndex defaultRow).tag_ids.filter
        (fun t => t != 0)).Nodup) :
    updateRowTags c rowIndex tok 'y' = PRes.ok (afterToggle c rowIndex tok) ∧
    updateRowTags (afterToggle c rowIndex tok) rowIndex tok 'y'
      = PRes.ok (afterToggle (afterToggle c rowIndex tok) rowIndex tok) ∧
    ((afterToggle (afterToggle c rowIndex tok) rowIndex tok).table.rows.getD
        rowIndex defaultRow).tag_ids.Perm
      ((c.table.rows.getD rowIndex defaultRow).tag_ids) := by
  have hcount1 : (c.table.rows.getD rowIndex defaultRow).tag_ids.count
      (atoiNat tok) = 1 := by
    refine Nat.le_antisymm ?_ (List.count_pos_iff.mpr hmem)
    have hcf : List.count (atoiNat tok)
        (List.filter (fun t => t != 0)
          (c.table.rows.getD rowIndex defaultRow).tag_ids)
        = List.count (atoiNat tok)
          (c.table.rows.getD rowIndex defaultRow).tag_ids :=
      List.count_filter (by simp [hT])
    rw [← hcf]
    exact List.nodup_iff_count_le_one.mp hnodup (atoiNat tok)
  have hk : (c.table.rows.getD rowIndex defaultRow).tag_ids.findIdx
      (fun s => s == atoiNat tok)
      < (c.table.rows.getD rowIndex defaultRow).tag_ids.length :=
    List.findIdx_lt_length_of_exists ⟨atoiNat tok, hmem, by simp⟩
  have hlk : (c.table.rows.getD rowIndex defaultRow).tag_ids.get
      ⟨(c.table.rows.getD rowIndex defaultRow).tag_ids.findIdx
        (fun s => s == atoiNat tok), hk⟩ = atoiNat tok := by
    rw [List.get_eq_getElem]
    have h := @List.findIdx_getElem _ _ _ hk
    simpa using h
  have e1 := updateRowTags_toggle_off c rowIndex tok hd hT hmem
  have hat1 := afterToggle_of_mem c rowIndex tok hd hT hmem
  have hgd1 : ((afterToggle c rowIndex tok).table.rows.getD rowIndex
      defaultRow).tag_ids =
      (c.table.rows.getD rowIndex defaultRow).tag_ids.set
        ((c.table.rows.getD rowIndex defaultRow).tag_ids.findIdx
          (fun s => s == atoiNat tok)) 0 := by
    rw [hat1]
    exact getD_setRowTags c rowIndex _ hrow
  have hlkE : (c.table.rows.getD rowIndex defaultRow).tag_ids.get
      ⟨(c.table.rows.getD rowIndex defaultRow).tag_ids.findIdx
        (fun s => s == atoiNat tok), hk⟩ = atoiNat tok := hlk
  rw [List.get_eq_getElem] at hlkE
  have hTnot : atoiNat tok ∉
      ((afterToggle c rowIndex tok).table.rows.getD rowIndex
        defaultRow).tag_ids := by
    rw [hgd1, ← List.count_eq_zero,
      List.count_set 0 (atoiNat tok) _ _ hk, hlkE, hcount1]
    have h0T : ¬ ((0 : Nat) = atoiNat tok) := fun h => hT h.symm
    simp only [beq_self_eq_true, if_true, beq_iff_eq, h0T, if_false]
  have h0mem : (0 : Nat) ∈
      ((afterToggle c rowIndex tok).table.rows.getD rowIndex
        defaultRow).tag_ids := by
    rw [hgd1]
    have hk2 : (c.table.rows.getD rowIndex defaultRow).tag_ids.findIdx
        (fun s => s == atoiNat tok) <
        ((c.table.rows.getD rowIndex defaultRow).tag_ids.set
          ((c.table.rows.getD rowIndex defaultRow).tag_ids.findIdx
            (fun s => s == atoiNat tok)) 0).length := by
      simpa using hk
    have hm := List.getElem_mem hk2
    rwa [List.getElem_set_self hk2] at hm
  have e2 := updateRowTags_add (afterToggle c rowIndex tok) rowIndex tok hd
    hTnot h0mem
  have hrow1 : rowIndex < (afterToggle c rowIndex tok).table.rows.length := by
    rw [hat1]
    unfold setRowTags
    simpa using hrow
  have hat2 := afterToggle_of_not_mem (afterToggle c rowIndex tok) rowIndex
    tok hd hTnot h0mem
  have hgd2 : ((afterToggle (afterToggle c rowIndex tok) rowIndex
      tok).table.rows.getD rowIndex defaultRow).tag_ids =
      (((afterToggle c rowIndex tok).table.rows.getD rowIndex
          defaultRow).tag_ids.set
        (((afterToggle c rowIndex tok).table.rows.getD rowIndex
            defaultRow).tag_ids.findIdx (fun s => s == 0))
        (atoiNat tok)) := by
    rw [hat2]
    exact getD_setRowTags _ rowIndex _ hrow1
  refine ⟨by rw [e1, hat1], by rw [e2, hat2], ?_⟩
  rw [hgd2, hgd1]
  have hk' : ((c.table.rows.getD rowIndex defaultRow).tag_ids.set
        ((c.table.rows.getD rowIndex defaultRow).tag_ids.findIdx
          (fun s => s == atoiNat tok)) 0).findIdx (fun s => s == 0)
      < (c.table.rows.getD rowIndex defaultRow).tag_ids.length := by
    have hlt : ((c.table.rows.getD rowIndex defaultRow).tag_ids.set
          ((c.table.rows.getD rowIndex defaultRow).tag_ids.findIdx
            (fun s => s == atoiNat tok)) 0).findIdx (fun s => s == 0)
        < ((c.table.rows.getD rowIndex defaultRow).tag_ids.set
          ((c.table.rows.getD rowIndex defaultRow).tag_ids.findIdx
            (fun s => s == atoiNat tok)) 0).length :=
      List.findIdx_lt_length_of_exists ⟨0, by rw [← hgd1]; exact h0mem, by simp⟩
    simpa using hlt
  have hlk'2 : ((c.table.rows.getD rowIndex defaultRow).tag_ids.set
      ((c.table.rows.getD rowIndex defaultRow).tag_ids.findIdx
        (fun s => s == atoiNat tok)) 0).get
      ⟨((c.table.rows.getD rowIndex defaultRow).tag_ids.set
          ((c.table.rows.getD rowIndex defaultRow).tag_ids.findIdx
            (fun s => s == atoiNat tok)) 0).findIdx (fun s => s == 0),
        by simpa using hk'⟩ = 0 := by
    rw [List.get_eq_getElem]
    have hkset : ((c.table.rows.getD rowIndex defaultRow).tag_ids.set
          ((c.table.rows.getD rowIndex defaultRow).tag_ids.findIdx
            (fun s => s == atoiNat tok)) 0).findIdx (fun s => s == 0)
        < ((c.table.rows.getD rowIndex defaultRow).tag_ids.set
          ((c.table.rows.getD rowIndex defaultRow).tag_ids.findIdx
            (fun s => s == atoiNat tok)) 0).length := by simpa using hk'
    have h := @List.findIdx_getElem _ _ _ hkset
    simpa using h
  exact perm_set_set_of _ (atoiNat tok) _ _ hk hk' hT hlk hlk'2 hcount1

theorem C7_double_toggle_witness :
    (atoiNat (("1").data) ≠ 0 ∧
      atoiNat (("1").data) ∈ (storeC5.table.rows.getD 0 defaultRow).tag_ids) ∧
    updateRowTags storeC5 0 (("1").data) 'y'
      = PRes.ok (afterToggle storeC5 0 (("1").data)) ∧
    updateRowTags (afterToggle storeC5 0 (("1").data)) 0 (("1").data) 'y'
      = PRes.ok (afterToggle (afterToggle storeC5 0 (("1").data)) 0 (("1").data)) ∧
    ((afterToggle (afterToggle storeC5 0 (("1").data)) 0
        (("1").data)).table.rows.getD 0 defaultRow).tag_ids.Perm
      ((storeC5.table.rows.getD 0 defaultRow).tag_ids) := by
  have h := C7_update_double_toggle storeC5 0 (("1").data) (by decide)
    (by decide) (by decide) (by decide) (by decide)
  exact ⟨by decide, h.1, h.2.1, h.2.2⟩

/-- Replacing one slot by 0 only shrinks the non-zero content of a slot
array. -/
theorem filter_set_zero_sublist :
    ∀ (l : List Nat) (k : Nat),
      ((l.set k 0).filter (fun t => t != 0)).Sublist
        (l.filter (fun t => t != 0)) := by
  intro l
  induction l with
  | nil => intro k; simp
  | cons u rest ih =>
    intro k
    match k with
    | 0 =>
      rw [List.set_cons_zero, List.filter_cons, List.filter_cons]
      simp only [bne_self_eq_false]
      by_cases hu : (u != 0) = true
      · rw [if_pos hu]
        exact List.Sublist.cons u (by simp)
      · rw [if_neg hu]
        simp
    | k + 1 =>
      rw [List.set_cons_succ, List.filter_cons, List.filter_cons]
      by_cases hu : (u != 0) = true
      · rw [if_pos hu, if_pos hu]
        exact List.Sublist.cons₂ u (ih k)
      · rw [if_neg hu, if_neg hu]
        exact ih k

/-- The cascade's per-row slot rewrite only shrinks the non-zero content. -/
theorem zeroTagSlots_filter_sublist (τ : Nat) :
    ∀ l : List Nat,
      ((zeroTagSlots l τ).filter (fun t => t != 0)).Sublist
        (l.filter (fun t => t != 0)) := by
  intro l
  induction l with
  | nil => simp [zeroTagSlots]
  | cons u rest ih =>
    simp only [zeroTagSlots, List.map_cons]
    by_cases huτ : u = τ
    · rw [if_pos huτ, List.filter_cons, List.filter_cons]
      simp only [bne_self_eq_false]
      by_cases hu : (u != 0) = true
      · rw [if_pos hu]
        exact List.Sublist.cons u (by simpa [zeroTagSlots] using ih)
      · rw [if_neg hu]
        simpa [zeroTagSlots] using ih
    · rw [if_neg huτ, List.filter_cons, List.filter_cons]
      by_cases hu : (u != 0) = true
      · rw [if_pos hu, if_pos hu]
        exact List.Sublist.cons₂ u (by simpa [zeroTagSlots] using ih)
      · rw [if_neg hu, if_neg hu]
        simpa [zeroTagSlots] using ih

/-- A non-zero value never survives the cascade's slot rewrite targeting
it. -/
theorem zeroTagSlots_not_mem (τ : Nat) (hτ : τ ≠ 0) (l : List Nat) :
    τ ∉ zeroTagSlots l τ := by
  intro hmem
  unfold zeroTagSlots at hmem
  rcases List.mem_map.mp hmem with ⟨u, _, hu⟩
  by_cases huτ : u = τ
  · rw [if_pos huτ] at hu
    exact hτ hu.symm
  · rw [if_neg huτ] at hu
    exact huτ hu

/-- A scan that ends on a free slot never saw the (non-zero) tag. -/
theorem scanSlots_freeAt_not_mem (t : Nat) (ht : t ≠ 0) :
    ∀ (l : List Nat) (i : Nat) (free : Option Nat) (k : Nat),
      scanSlots l t i free = SlotScan.freeAt k → t ∉ l := by
  intro l
  induction l with
  | nil => intro i free k _; exact List.not_mem_nil t
  | cons s rest ih =>
    intro i free k hscan
    rw [scanSlots_cons] at hscan
    by_cases h1 : s = 0 ∧ free = none
    · rw [if_pos h1] at hscan
      intro hmem
      rcases List.mem_cons.mp hmem with h | h
      · exact ht (h.trans h1.1)
      · exact ih (i + 1) (some i) k hscan h
    · rw [if_neg h1] at hscan
      by_cases h2 : s = t
      · rw [if_pos h2] at hscan
        exact SlotScan.noConfusion hscan
      · rw [if_neg h2] at hscan
        intro hmem
        rcases List.mem_cons.mp hmem with h | h
        · exact h2 h.symm
        · exact ih (i + 1) free k hscan h

/-- A scan that ends on slot `k` (with no remembered free slot at start)
found a zero in that slot. -/
theorem scanSlots_freeAt_spec :
    ∀ (l : List Nat) (t i : Nat) (free : Option Nat) (k : Nat),
      scanSlots l t i free = SlotScan.freeAt k →
      free = some k ∨ (i ≤ k ∧ k - i < l.length ∧ l.getD (k - i) 0 = 0) := by
  intro l
  induction l with
  | nil =>
    intro t i free k h
    match free with
    | none => rw [scanSlots_nil] at h; exact SlotScan.noConfusion h
    | some k' =>
      rw [scanSlots_nil_some] at h
      cases h
      exact Or.inl rfl
  | cons s rest ih =>
    intro t i free k h
    rw [scanSlots_cons] at h
    by_cases h1 : s = 0 ∧ free = none
    · rw [if_pos h1] at h
      rcases ih t (i + 1) (some i) k h with hs | ⟨hik, hlt, hget⟩
      · have hik : i = k := Option.some.inj hs
        subst hik
        refine Or.inr ⟨Nat.le_refl i, by simp, ?_⟩
        simp [h1.1]
      · refine Or.inr ⟨by omega, by simp only [List.length_cons]; omega, ?_⟩
        have hsk : k - i = (k - (i + 1)) + 1 := by omega
        rw [hsk, List.getD_cons_succ]
        exact hget
    · rw [if_neg h1] at h
      by_cases h2 : s = t
      · rw [if_pos h2] at h
        exact SlotScan.noConfusion h
      · rw [if_neg h2] at h
        rcases ih t (i + 1) free k h with hs | ⟨hik, hlt, hget⟩
        · exact Or.inl hs
        · refine Or.inr ⟨by omega, by simp only [List.length_cons]; omega, ?_⟩
          have hsk : k - i = (k - (i + 1)) + 1 := by omega
          rw [hsk, List.getD_cons_succ]
          exact hget

/-- `GetInputTagIndex` always lands inside the live `count` range when the
store has any tags (matched index or the fallback 0). -/
theorem GetInputTagIndex_lt (c : Core) (tok : CStr) (hc : 0 < c.tags.count) :
    GetInputTagIndex c tok < c.tags.count := by
  unfold GetInputTagIndex
  by_cases hd : headDigit tok
  · rw [if_pos hd]
    cases hfi : (c.tags.tags.take c.tags.count).findIdx?
        (fun tg => tg.id == atoiNat tok) with
    | none => simpa using hc
    | some i =>
      obtain ⟨hlen, _, _⟩ := List.findIdx?_eq_some_iff_getElem.mp hfi
      simp only [Option.getD_some]
      rw [List.length_take] at hlen
      omega
  · rw [if_neg hd]
    cases hfi : (c.tags.tags.take c.tags.count).findIdx?
        (fun tg => striEq tg.name tok) with
    | none => simpa using hc
    | some i =>
      obtain ⟨hlen, _, _⟩ := List.findIdx?_eq_some_iff_getElem.mp hfi
      simp only [Option.getD_some]
      rw [List.length_take] at hlen
      omega

/-- Well-formedness of a loaded store: the `count` fields equal the number of
initialized array entries (as `ReadJSON` establishes) and every row carries
exactly the `ROW_TAG_C` fixed slots. -/
def storeWF (c : Core) : Prop :=
  c.table.count = c.table.rows.length ∧ c.tags.count = c.tags.tags.length ∧
  ∀ r ∈ c.table.rows, r.tag_ids.length = ROW_TAG_C

/-- A live-tag witness survives overwriting one tag slot with an entry of the
same id (renaming). -/
theorem witness_set_id_eq (tags : List Tag) (count index : Nat) (e : Tag)
    (hid : e.id = (tags.getD index defaultTag).id) :
    ∀ t, (∃ tg ∈ tags.take count, tg.id = t ∧ tg.id ≠ 0) →
      (∃ tg ∈ (tags.set index e).take count, tg.id = t ∧ tg.id ≠ 0) := by
  intro t hw
  obtain ⟨tg, htg, hteq, htne⟩ := hw
  obtain ⟨n, hn, hgn⟩ := List.mem_iff_getElem.mp htg
  have hnlen : n < tags.length := by
    rw [List.length_take] at hn
    omega
  have hgn' : tags.get ⟨n, hnlen⟩ = tg := by
    rw [← hgn]
    rw [List.get_eq_getElem]
    simp [List.getElem_take]
  by_cases hni : n = index
  · subst hni
    refine ⟨e, ?_, ?_, ?_⟩
    · apply List.mem_iff_getElem.mpr
      refine ⟨n, ?_, ?_⟩
      · rw [List.length_take, List.length_set]
        rw [List.length_take] at hn
        omega
      · rw [List.getElem_take]
        exact List.getElem_set_self (by rw [List.length_set]; omega)
    · rw [hid, getD_of_lt tags n defaultTag hnlen, hgn', hteq]
    · rw [hid, getD_of_lt tags n defaultTag hnlen, hgn']
      exact hteq ▸ htne
  · refine ⟨tg, ?_, hteq, htne⟩
    apply List.mem_iff_getElem.mpr
    refine ⟨n, ?_, ?_⟩
    · rw [List.length_take, List.length_set]
      rw [List.length_take] at hn
      omega
    · rw [List.getElem_take, List.getElem_set_ne (fun h => hni h.symm)]
      rw [List.get_eq_getElem] at hgn'
      exact hgn'

/-- A live-tag witness for an id other than the removed one survives
tombstoning the removed tag. -/
theorem witness_after_remove (tags : List Tag) (count index : Nat) (t : Nat)
    (hne : t ≠ (tags.getD index defaultTag).id)
    (hw : ∃ tg ∈ tags.take count, tg.id = t ∧ tg.id ≠ 0) :
    ∃ tg ∈ (tags.set index
        { tags.getD index defaultTag with id := 0 }).take count,
      tg.id = t ∧ tg.id ≠ 0 := by
  obtain ⟨tg, htg, hteq, htne⟩ := hw
  obtain ⟨n, hn, hgn⟩ := List.mem_iff_getElem.mp htg
  have hnlen : n < tags.length := by
    rw [List.length_take] at hn
    omega
  have hgn' : tags.get ⟨n, hnlen⟩ = tg := by
    rw [← hgn, List.get_eq_getElem]
    simp [List.getElem_take]
  by_cases hni : n = index
  · subst hni
    exfalso
    apply hne
    rw [← hteq, ← hgn', getD_of_lt tags n defaultTag hnlen]
  · refine ⟨tg, ?_, hteq, htne⟩
    apply List.mem_iff_getElem.mpr
    refine ⟨n, ?_, ?_⟩
    · rw [List.length_take, List.length_set]
      rw [List.length_take] at hn
      omega
    · rw [List.getElem_take, List.getElem_set_ne (fun h => hni h.symm)]
      rw [List.get_eq_getElem] at hgn'
      exact hgn'

/-- Writing a fresh id into a zero slot keeps the non-zero slots duplicate
free. -/
theorem set_free_slot_nodup (l : List Nat) (k v : Nat) (hk : k < l.length)
    (hk0 : l.getD k 0 = 0) (hv : v ∉ l)
    (hnd : (l.filter (fun t => t != 0)).Nodup) :
    ((l.set k v).filter (fun t => t != 0)).Nodup := by
  by_cases hv0 : v = 0
  · subst hv0
    exact (filter_set_zero_sublist l k).nodup hnd
  · rw [List.nodup_iff_count_le_one]
    intro a
    by_cases ha : a = 0
    · subst ha
      have : (0 : Nat) ∉ (l.set k v).filter (fun t => t != 0) := by
        intro hmem
        have := List.of_mem_filter hmem
        simp at this
      rw [List.count_eq_zero.mpr this]
      omega
    · have hpa : ((a != 0) = true) := by simp [ha]
      have hcf : List.count a ((l.set k v).filter (fun t => t != 0))
          = List.count a (l.set k v) := List.count_filter hpa
      have hcf2 : List.count a (l.filter (fun t => t != 0))
          = List.count a l := List.count_filter hpa
      have hk0' : l.get ⟨k, hk⟩ = 0 := by
        rw [← getD_of_lt l k 0 hk]
        exact hk0
      have hcs := List.count_set v a l k hk
      rw [List.get_eq_getElem] at hk0'
      rw [hk0'] at hcs
      have h0a : ((0 : Nat) == a) = false := by
        have hna : ¬ ((0 : Nat) = a) := fun h => ha h.symm
        simp [hna]
      rw [h0a] at hcs
      simp only [Bool.false_eq_true, if_false] at hcs
      have hcla : l.count a ≤ 1 := by
        rw [← hcf2]
        exact List.nodup_iff_count_le_one.mp hnd a
      rw [hcf, hcs]
      by_cases hav : a = v
      · have hcv : l.count a = 0 := by
          rw [hav]
          exact List.count_eq_zero.mpr hv
        have hva : (v == a) = true := by simp [hav]
        rw [hva, hcv]
        simp
      · have hva : (v == a) = false := by
          have hnva : ¬ (v = a) := fun h => hav h.symm
          simp [hnva]
        rw [hva]
        simp only [Bool.false_eq_true, if_false]
        omega

/-- Appending a fresh tag (AddTag) preserves referential integrity. -/
theorem processTagAdd_preserves (c : Core)
    (hwt : c.tags.count = c.tags.tags.length)
    (hri : refIntegrity c) (name : CStr) (c' : Core)
    (hok : processTagAdd c name = PRes.ok c') : refIntegrity c' := by
  unfold processTagAdd at hok
  split at hok
  · split at hok
    · simp at hok
    · cases hok
      intro r hr
      simp only at hr
      obtain ⟨hrefs, hnd⟩ := hri r hr
      refine ⟨?_, hnd⟩
      intro t ht ht0
      obtain ⟨tg, htg, hteq, htne⟩ := hrefs t ht ht0
      refine ⟨tg, ?_, hteq, htne⟩
      simp only
      unfold storeAt
      rw [if_neg (by omega)]
      rw [List.take_of_length_le (by simp [hwt])]
      exact List.mem_append_left _ (List.mem_of_mem_take htg)
  · simp at hok

/-- Renaming a tag (RenameTag) preserves referential integrity: no id
changes. -/
theorem processTagRename_preserves (c : Core)
    (hri : refIntegrity c) (tok newName : CStr) (c' : Core)
    (hok : processTagRename c tok newName = PRes.ok c') : refIntegrity c' := by
  unfold processTagRename at hok
  cases hok
  intro r hr
  simp only at hr
  obtain ⟨hrefs, hnd⟩ := hri r hr
  refine ⟨?_, hnd⟩
  intro t ht ht0
  exact witness_set_id_eq c.tags.tags c.tags.count (GetInputTagIndex c tok)
    { (c.tags.tags.getD (GetInputTagIndex c tok) defaultTag) with
      name := newName }
    rfl t (hrefs t ht ht0)

/-- Tombstoning a row (RemoveRow) preserves referential integrity. -/
theorem processRemove_preserves (c : Core)
    (hwr : c.table.count = c.table.rows.length)
    (hri : refIntegrity c) (idTok : CStr) (conf : Char) (c' : Core)
    (hok : processRemove c idTok conf = PRes.ok c') : refIntegrity c' := by
  unfold processRemove at hok
  split at hok
  · simp at hok
  · split at hok
    · simp at hok
    · rename_i index hfind
      split at hok
      · cases hok
        intro r hr
        simp only at hr
        obtain ⟨n, hn, hgn⟩ := List.mem_iff_getElem.mp hr
        rw [List.length_take, List.length_set] at hn
        have hnlen : n < c.table.rows.length := by omega
        have hn2 : n < (c.table.rows.take c.table.count).length := by
          rw [List.length_take]
          omega
        have hmem : (c.table.rows.take c.table.count).get ⟨n, hn2⟩ ∈
            c.table.rows.take c.table.count := by
          rw [List.get_eq_getElem]
          exact List.getElem_mem _
        obtain ⟨hrefs, hnd⟩ := hri _ hmem
        have htags : r.tag_ids = ((c.table.rows.take c.table.count).get
            ⟨n, hn2⟩).tag_ids := by
          rw [← hgn, List.get_eq_getElem]
          simp only [List.getElem_take]
          by_cases hni : n = index
          · subst hni
            rw [List.getElem_set_self (by simpa using hnlen)]
            simp only [List.getD_eq_getElem?_getD,
              List.getElem?_eq_getElem hnlen, Option.getD_some]
          · rw [List.getElem_set_ne (fun h => hni h.symm)]
        refine ⟨?_, htags ▸ hnd⟩
        intro t ht ht0
        exact hrefs t (htags ▸ ht) ht0
      · simp at hok

/-- The tag-remove cascade (RemoveTag, confirmed) preserves referential
integrity and nulls every row reference to the removed tag. -/
theorem processTagRemove_preserves (c : Core)
    (hwr : c.table.count = c.table.rows.length)
    (_hwt : c.tags.count = c.tags.tags.length)
    (hri : refIntegrity c) (tok : CStr) (conf : Char) (now : CStr) (c' : Core)
    (hok : processTagRemove c tok conf now = PRes.ok c') :
    refIntegrity c' ∧
    (headDigit tok = true →
      (c.tags.tags.getD (GetInputTagIndex c tok) defaultTag).id ≠ 0 →
      ∀ r ∈ c'.table.rows.take c'.table.count,
        (c.tags.tags.getD (GetInputTagIndex c tok) defaultTag).id ∉
          r.tag_ids) := by
  have hfullrows : c.table.rows.take c.table.count = c.table.rows := by
    rw [hwr, List.take_length]
  unfold processTagRemove at hok
  split at hok
  · simp at hok
  · rename_i tok' htok
    split at hok
    · cases hok
      have hcr : cascadeRows c.table.rows c.table.count
          (c.tags.tags.getD (GetInputTagIndex c tok') defaultTag).id now
          = c.table.rows.map (fun r => cascadeRow r
            (c.tags.tags.getD (GetInputTagIndex c tok') defaultTag).id now) := by
        unfold cascadeRows
        rw [hwr, List.take_length, List.drop_length, List.append_nil]
      constructor
      · intro r hr
        simp only at hr ⊢
        rw [hcr, List.take_of_length_le (by simp [hwr])] at hr
        obtain ⟨r0, hr0, hrc⟩ := List.mem_map.mp hr
        obtain ⟨hrefs, hnd⟩ := hri r0 (hfullrows.symm ▸ hr0)
        subst hrc
        unfold cascadeRow
        by_cases hτr :
            (c.tags.tags.getD (GetInputTagIndex c tok') defaultTag).id ∈
              r0.tag_ids
        · rw [if_pos hτr]
          refine ⟨?_, ?_⟩
          · intro t ht ht0
            simp only at ht
            unfold zeroTagSlots at ht
            obtain ⟨u, hu, hmap⟩ := List.mem_map.mp ht
            by_cases huτ :
                u = (c.tags.tags.getD (GetInputTagIndex c tok') defaultTag).id
            · rw [if_pos huτ] at hmap
              exact absurd hmap.symm ht0
            · rw [if_neg huτ] at hmap
              subst hmap
              exact witness_after_remove c.tags.tags c.tags.count
                (GetInputTagIndex c tok') u huτ (hrefs u hu ht0)
          · simp only
            exact hnd.sublist (zeroTagSlots_filter_sublist _ r0.tag_ids)
        · rw [if_neg hτr]
          refine ⟨?_, hnd⟩
          intro t ht ht0
          have htτ : t ≠
              (c.tags.tags.getD (GetInputTagIndex c tok') defaultTag).id :=
            fun h => hτr (h ▸ ht)
          exact witness_after_remove c.tags.tags c.tags.count
            (GetInputTagIndex c tok') t htτ (hrefs t ht ht0)
      · intro hd hτ r hr
        have htok' : tok' = tok := by
          rw [if_pos (by simp [hd])] at htok
          exact (Except.ok.inj htok).symm
        subst htok'
        simp only at hr
        rw [hcr, List.take_of_length_le (by simp [hwr])] at hr
        obtain ⟨r0, hr0, hrc⟩ := List.mem_map.mp hr
        subst hrc
        unfold cascadeRow
        by_cases hτr :
            (c.tags.tags.getD (GetInputTagIndex c tok') defaultTag).id ∈
              r0.tag_ids
        · rw [if_pos hτr]
          simp only
          exact zeroTagSlots_not_mem _ hτ r0.tag_ids
        · rw [if_neg hτr]
          exact hτr
    · simp at hok

/-- Direct tag assignment (`tag <url-id> <ref>`) preserves referential
integrity. -/
theorem processTagAddToEntry_preserves (c : Core)
    (hwr : c.table.count = c.table.rows.length)
    (hwt : c.tags.count = c.tags.tags.length)
    (hri : refIntegrity c) (idTok tagTok : CStr) (now : CStr) (c' : Core)
    (hok : processTagAddToEntry c idTok tagTok now = PRes.ok c') :
    refIntegrity c' := by
  have hfullrows : c.table.rows.take c.table.count = c.table.rows := by
    rw [hwr, List.take_length]
  unfold processTagAddToEntry at hok
  split at hok
  · simp at hok
  · split at hok
    · simp at hok
    · rename_i tagTok' htok
      split at hok
      · simp at hok
      · rename_i urlIndex hfind
        dsimp only at hok
        split at hok
        · simp at hok
        · simp at hok
        · rename_i k hscan
          cases hok
          obtain ⟨hulen, _, _⟩ := List.findIdx?_eq_some_iff_getElem.mp hfind
          rw [List.length_take] at hulen
          have hurl : urlIndex < c.table.rows.length := by omega
          have hurlc : urlIndex < c.table.count := by omega
          have hrowmem : c.table.rows.getD urlIndex defaultRow ∈
              c.table.rows.take c.table.count := by
            rw [hfullrows, getD_of_lt c.table.rows urlIndex defaultRow hurl,
              List.get_eq_getElem]
            exact List.getElem_mem hurl
          obtain ⟨hrefsrow, hndrow⟩ := hri _ hrowmem
          rcases scanSlots_freeAt_spec
              (c.table.rows.getD urlIndex defaultRow).tag_ids
              (c.tags.tags.getD (GetInputTagIndex c tagTok') defaultTag).id
              0 none k hscan with hcontra | ⟨_, hklen, hk0⟩
          · exact absurd hcontra (by simp)
          · simp only [Nat.sub_zero] at hklen hk0
            intro r hr
            simp only at hr ⊢
            obtain ⟨n, hn, hgn⟩ := List.mem_iff_getElem.mp hr
            rw [List.length_take, List.length_set] at hn
            have hnlen : n < c.table.rows.length := by omega
            by_cases hni : n = urlIndex
            · subst hni
              rw [List.getElem_take,
                List.getElem_set_self (by simpa using hnlen)] at hgn
              subst hgn
              refine ⟨?_, ?_⟩
              · intro t ht ht0
                simp only at ht
                rcases List.mem_or_eq_of_mem_set ht with hold | hnew
                · exact hrefsrow t hold ht0
                · subst hnew
                  have hclt : 0 < c.tags.count := by
                    by_contra hzero
                    have hnil : c.tags.tags = [] :=
                      List.eq_nil_of_length_eq_zero (by omega)
                    rw [hnil] at ht0
                    simp [defaultTag] at ht0
                  have hlt := GetInputTagIndex_lt c tagTok' hclt
                  refine ⟨c.tags.tags.getD (GetInputTagIndex c tagTok')
                    defaultTag, ?_, rfl, ht0⟩
                  rw [getD_of_lt c.tags.tags _ defaultTag (by omega),
                    List.get_eq_getElem]
                  apply List.mem_iff_getElem.mpr
                  refine ⟨GetInputTagIndex c tagTok', ?_, ?_⟩
                  · rw [List.length_take]
                    omega
                  · rw [List.getElem_take]
              · simp only
                by_cases hτ0 : (c.tags.tags.getD (GetInputTagIndex c tagTok')
                    defaultTag).id = 0
                · rw [hτ0]
                  exact hndrow.sublist (filter_set_zero_sublist _ k)
                · exact set_free_slot_nodup _ k _ hklen hk0
                    (scanSlots_freeAt_not_mem _ hτ0 _ 0 none k hscan) hndrow
            · rw [List.getElem_take,
                List.getElem_set_ne (fun h => hni h.symm)] at hgn
              have hmem : r ∈ c.table.rows.take c.table.count := by
                rw [hfullrows, ← hgn]
                exact List.getElem_mem hnlen
              exact hri r hmem

instance storeWFDecidable (c : Core) : Decidable (storeWF c) := by
  unfold storeWF
  infer_instance

/-- C2 amended: referential integrity (every non-zero tag slot references a
live tag; no duplicate non-zero ids within a row) is preserved by the
mutation operations that resolve their tag references — tag assignment via
the direct `tag <url-id> <ref>` command, AddTag, RenameTag, RemoveTag and
RemoveRow — and a confirmed RemoveTag nulls out every row reference to the
removed tag.  AddRow and UpdateRow are excluded: they store numeric tag
tokens via `atoi` without validating them against live tags, which breaks
the invariant (see the counterexample). -/
theorem C2_integrity_amended (c : Core) (hwf : storeWF c)
    (hri : refIntegrity c) :
    (∀ tok conf now c', processTagRemove c tok conf now = PRes.ok c' →
      refIntegrity c' ∧
      (headDigit tok = true →
        (c.tags.tags.getD (GetInputTagIndex c tok) defaultTag).id ≠ 0 →
        ∀ r ∈ c'.table.rows.take c'.table.count,
          (c.tags.tags.getD (GetInputTagIndex c tok) defaultTag).id ∉
            r.tag_ids)) ∧
    (∀ idTok tagTok now c',
      processTagAddToEntry c idTok tagTok now = PRes.ok c' →
      refIntegrity c') ∧
    (∀ name c', processTagAdd c name = PRes.ok c' → refIntegrity c') ∧
    (∀ tok newName c',
      processTagRename c tok newName = PRes.ok c' → refIntegrity c') ∧
    (∀ idTok conf c',
      processRemove c idTok conf = PRes.ok c' → refIntegrity c') := by
  refine ⟨?_, ?_, ?_, ?_, ?_⟩
  · intro tok conf now c' hok
    exact processTagRemove_preserves c hwf.1 hwf.2.1 hri tok conf now c' hok
  · intro idTok tagTok now c' hok
    exact processTagAddToEntry_preserves c hwf.1 hwf.2.1 hri idTok tagTok
      now c' hok
  · intro name c' hok
    exact processTagAdd_preserves c hwf.2.1 hri name c' hok
  · intro tok newName c' hok
    exact processTagRename_preserves c hri tok newName c' hok
  · intro idTok conf c' hok
    exact processRemove_preserves c hwf.1 hri idTok conf c' hok

/-- The store `tag remove 1` (confirmed) produces from `storeC4`: tag 1 is
tombstoned and row A's reference to it zeroed. -/
def storeC4tagRemoved : Core :=
  { table := { rows := [{ rowEx1 with tag_ids := [0, 0, 0, 0, 0, 0, 0, 0], last_updated := nowEx }, rowEx2], count := 2, next_UID := 3 },
    tags := { tags := [{ id := 0, name := ("one").data }, tagT2], count := 2, next_UID := 3 } }

theorem C2_integrity_witness :
    (storeWF storeC4 ∧ refIntegrity storeC4) ∧
    refIntegrity storeC4tagRemoved ∧
    (1 ∉ (storeC4tagRemoved.table.rows.getD 0 defaultRow).tag_ids) := by
  have h := C2_integrity_amended storeC4 (by decide) (by decide)
  have h1 := h.1 (("1").data) 'y' nowEx storeC4tagRemoved (by decide)
  refine ⟨⟨by decide, by decide⟩, h1.1, ?_⟩
  exact h1.2 (by decide) (by decide)
    (storeC4tagRemoved.table.rows.getD 0 defaultRow) (by decide)

/-- C7 counterexample: the claim states that assigning an already-present tag
asks for confirmation and clears the slot (toggle).  On the code, the direct
assignment command `tag <url-id> <tag-ref>` (`IM_TAG_ADD_TO_ENTRY`) does not
toggle: it prints "URL entry is already tagged" and exits 0 without asking
anything and without mutating the row. -/
theorem C7_direct_assign_does_not_toggle :
    processTagAddToEntry storeC5 (("1").data) (("1").data) nowEx =
      PRes.exited 0 msgAlreadyTagged storeC5 := by
  decide

/-- A tombstoned tag (as left behind by a confirmed `tag -r`). -/
def tagTomb : Tag := { id := 0, name := ("gone").data }

/-- A store whose last initialized tag slot is tombstoned: one live tag in
slot 0, a removed tag in slot 1, no rows. -/
def storeC3tomb : Core :=
  { table := { rows := [], count := 0, next_UID := 1 },
    tags := { tags := [tagT1, tagTomb], count := 2, next_UID := 3 } }

/-- C3 counterexample: the claim states that encode never emits a trailing
separator after the last entry of a section.  On the code, the separator
choice compares the slot index against `count - 1`, so when the last
initialized tag slot is tombstoned the preceding live entry is followed by
`",\n"` and the tags section ends `",\n\t}"`: a trailing separator.  The
emitted bytes are not the separator-correct layout of the live entries, the
loader rejects them (strict JSON admits no trailing comma), while the
separator-correct layout of the same live entries loads fine. -/
theorem C3_trailing_separator :
    WriteJSON_str storeC3tomb =
      (("\x7b\n\t\"tags\":\x7b\n\t\t\"1\": \"one\",\n\t\x7d,\n\t\"rows\":\x7b\n\t\x7d\n\x7d\n")).data ∧
    liveTags storeC3tomb = [tagT1] ∧
    WriteJSON_str storeC3tomb ≠
      renderFile (liveTags storeC3tomb) (liveRows storeC3tomb) ∧
    decode (WriteJSON_str storeC3tomb) = none ∧
    decode (renderFile (liveTags storeC3tomb) (liveRows storeC3tomb)) =
      some { table := { rows := [], count := 0, next_UID := 1 },
             tags := { tags := [tagT1], count := 1, next_UID := 2 } } := by
  decide

/-- C3 (amended): on every store whose entries are all live, whose `count`
fields equal the backing-array lengths, whose counters are already
normalized to max-id-plus-one, and whose string fields are free of
JSON-special characters and within the loader's field bounds, the encoder
emits the separator-correct layout of exactly the live entries (tombstones
absent, no trailing separator) and decode ∘ encode is the identity: rows,
tags and both next-id counters are recovered exactly. -/
theorem C3_roundtrip_amended (c : Core) (h : encOK c) :
    WriteJSON_str c = renderFile (liveTags c) (liveRows c) ∧
    decode (WriteJSON_str c) = some c :=
  decode_WriteJSON_str c h

theorem C3_roundtrip_witness :
    encOK storeC4 ∧ decode (WriteJSON_str storeC4) = some storeC4 :=
  ⟨by decide, (C3_roundtrip_amended storeC4 (by decide)).2⟩

end SBM
